import Mathlib

/-!
# PolyMuse counterpoint engine and rule checker

A shallow embedding of `Source/CounterpointEngine.cpp`, `Source/RuleChecker.cpp`
and `Source/ECCTypes.h`.

Conventions of the embedding:

* C++ `int` pitches are `Int`; they hold MIDI note numbers, so the arithmetic is
  done without wrap-around.
* C++ `float` / `double` values (weights, severities, timestamps, the value of
  `nextFloat`) are exact rationals `ℚ` carrying the value of the decimal literal.
* In `suggestAlternativeNote` the result depends on comparing products of floats,
  so there the single-precision rounding is explicit: the definitions take the
  rounding function `fl` as a parameter and apply it to every float literal and
  after every float operation. `roundToFloat` is the rounding to the nearest
  binary32 value; the theorems hold for every `fl` that keeps the sign.
* `juce::Random::getSystemRandom()` is an explicit stream of draws that is threaded
  through the functions; the clock value `now` is an argument.
* `std::cout` logging is left out; it has no effect on the state or the results.
-/

namespace PolyMuse

/-! ## C++ integer helpers -/

/-- The C++ `std::abs` on `int`. -/
def stdAbs (x : Int) : Int := if x < 0 then -x else x

/-- The C++ `%` on `int`: the remainder of the division truncated towards zero. -/
def cMod (a b : Int) : Int := Int.tmod a b

/-- The template `juce::jlimit (lowerLimit, upperLimit, valueToConstrain)`. -/
def jlimit (lowerLimit upperLimit valueToConstrain : Int) : Int :=
  if valueToConstrain < lowerLimit then lowerLimit
  else if upperLimit < valueToConstrain then upperLimit
  else valueToConstrain

/-! ## The random source -/

/-- The state of `juce::Random::getSystemRandom()`: the `n`-th call made to the
generator returns `floats n` when it is `nextFloat` and `bools n` when it is
`nextBool`; `pos` counts the calls made so far. -/
structure Random where
  floats : Nat → ℚ
  bools : Nat → Bool
  pos : Nat

/-- The call `nextFloat()`: the value drawn and the advanced generator. -/
def Random.nextFloat (r : Random) : ℚ × Random :=
  (r.floats r.pos, { r with pos := r.pos + 1 })

/-- The call `nextBool()`: the value drawn and the advanced generator. -/
def Random.nextBool (r : Random) : Bool × Random :=
  (r.bools r.pos, { r with pos := r.pos + 1 })

/-! ## MIDI messages -/

/-- The `juce::MidiMessage` values the engine reads and builds: a note-on, a
note-off, and the default-constructed message `juce::MidiMessage()` that
`noteOffForInput` returns when there is no mapping. -/
inductive MidiMessage where
  | noteOn (channel : Int) (noteNumber : Int) (velocity : Nat)
  | noteOff (channel : Int) (noteNumber : Int)
  | empty
  deriving DecidableEq, Repr

/-- The accessor `getNoteNumber()`; the default message carries no note (0 here). -/
def MidiMessage.getNoteNumber : MidiMessage → Int
  | .noteOn _ n _ => n
  | .noteOff _ n => n
  | .empty => 0

/-- The accessor `getVelocity()`; only a note-on carries a velocity. -/
def MidiMessage.getVelocity : MidiMessage → Nat
  | .noteOn _ _ v => v
  | _ => 0

/-! ## CounterpointEngine -/

/-- The struct `NotePair` of `CounterpointEngine.h`. -/
structure NotePair where
  inputPitch : Int
  generatedPitch : Int
  timestamp : ℚ
  deriving DecidableEq, Repr

/-- The data members of `class CounterpointEngine`: the `std::deque` history
(front of the deque = head of the list), the `std::unordered_map` of active pairs
as a finite-support lookup function, and the three scalar fields. The stateless
`ruleChecker` and the scoring `model` are not part of the mutable state. -/
structure CounterpointEngine where
  history : List NotePair
  activePairs : Int → Option Int
  lastGeneratedNote : Int
  lastInputNote : Int
  generateAbove : Bool

namespace CounterpointEngine

/-- The engine after its constructor: empty containers and the in-class
initialisers `lastGeneratedNote = -1`, `lastInputNote = -1`, `generateAbove = true`. -/
def new : CounterpointEngine :=
  { history := [], activePairs := fun _ => none,
    lastGeneratedNote := -1, lastInputNote := -1, generateAbove := true }

/-- The inline setter `setGenerateAbove`. -/
def setGenerateAbove (e : CounterpointEngine) (above : Bool) : CounterpointEngine :=
  { e with generateAbove := above }

/-- The method `isTritone`. -/
def isTritone (inputPitch generatedPitch : Int) : Bool :=
  let interval := cMod (stdAbs (generatedPitch - inputPitch)) 12
  interval == 6

/-- The local struct `IntervalOption`. -/
structure IntervalOption where
  semitones : Int
  weight : ℚ

/-- The static table `consonantIntervals` of `generateValidCounterpoint`. -/
def consonantIntervals : List IntervalOption :=
  [⟨3, 0.25⟩, ⟨4, 0.25⟩, ⟨7, 0.10⟩, ⟨8, 0.20⟩, ⟨9, 0.15⟩, ⟨12, 0.05⟩]

/-- The second `for` loop of the lambda `chooseWeightedInterval`: walk the table,
return the first entry with `r < weight`, subtracting the weights passed over;
`none` when the loop runs off the end of the table. -/
def pickInterval : List IntervalOption → ℚ → Option Int
  | [], _ => none
  | i :: rest, r => if r < i.weight then some i.semitones else pickInterval rest (r - i.weight)

/-- The lambda `chooseWeightedInterval`: one `nextFloat` draw scaled by the total
weight, then the table walk, with `consonantIntervals[0].semitones` as the result
when the walk finds nothing. -/
def chooseWeightedInterval (rng : Random) : Int × Random :=
  let total := consonantIntervals.foldl (fun t i => t + i.weight) 0
  let d := rng.nextFloat
  let r := d.1 * total
  match pickInterval consonantIntervals r with
  | some s => (s, d.2)
  | none => ((consonantIntervals.headD ⟨3, 0.25⟩).semitones, d.2)

/-- Lines 103-122 of `generateValidCounterpoint`: apply the interval on the
configured side, and when the note leaves [24,96] try the octave shift and then
the other side. -/
def rangeAdjust (generateAbove : Bool) (inputPitch interval : Int) : Int :=
  let genNote := if generateAbove then inputPitch + interval else inputPitch - interval
  if genNote < 24 ∨ genNote > 96 then
    let genNote :=
      if generateAbove = true ∧ genNote > 96 then inputPitch + interval - 12
      else if generateAbove = false ∧ genNote < 24 then inputPitch - interval + 12
      else genNote
    if genNote < 24 ∨ genNote > 96 then
      if generateAbove then inputPitch - interval else inputPitch + interval
    else genNote
  else genNote

/-- Lines 130-146: the parallel-perfect test of a candidate against the fields
`lastGeneratedNote` / `lastInputNote`; `true` when the candidate is rejected. -/
def parallelPerfect (e : CounterpointEngine) (inputPitch genNote : Int) : Bool :=
  if e.lastGeneratedNote ≠ -1 ∧ e.lastInputNote ≠ -1 then
    let currentInterval := cMod (stdAbs (genNote - inputPitch)) 12
    let prevInterval := cMod (stdAbs (e.lastGeneratedNote - e.lastInputNote)) 12
    let sameDirection : Bool :=
      (decide (genNote > e.lastGeneratedNote) && decide (inputPitch > e.lastInputNote)) ||
      (decide (genNote < e.lastGeneratedNote) && decide (inputPitch < e.lastInputNote))
    sameDirection &&
      ((prevInterval == 7 && currentInterval == 7) ||
       (prevInterval == 0 && currentInterval == 0))
  else false

/-- The local variables of `generateValidCounterpoint` that the `while` loop
updates, together with the random source. -/
structure LoopState where
  genNote : Int
  tries : Nat
  motion : Int
  rng : Random

/-- The loop `while (tries < 8)` of lines 98-152. The first argument bounds the
number of iterations; the loop is entered with `tries = 0` and each iteration
that does not `break` increments `tries`, so 8 is enough. -/
def attemptLoop (e : CounterpointEngine) (inputPitch : Int) : Nat → LoopState → LoopState
  | 0, st => st
  | fuel + 1, st =>
    if st.tries < 8 then
      let c := chooseWeightedInterval st.rng
      let genNote := rangeAdjust e.generateAbove inputPitch c.1
      let valid : Bool := !isTritone inputPitch genNote
      let valid : Bool := valid && !parallelPerfect e inputPitch genNote
      if valid then { st with genNote := genNote, rng := c.2 }
      else
        let b := c.2.nextBool
        attemptLoop e inputPitch fuel
          { genNote := genNote, tries := st.tries + 1,
            motion := if b.1 then 1 else -1, rng := b.2 }
    else st

/-- Lines 86-93: the initial value of `motion`, drawing a coin when the input
did not move or there is no previous input. -/
def initialMotion (e : CounterpointEngine) (inputPitch : Int) (rng : Random) : Int × Random :=
  if e.lastInputNote ≠ -1 then
    if inputPitch > e.lastInputNote then (-1, rng)
    else if inputPitch < e.lastInputNote then (1, rng)
    else let b := rng.nextBool; (if b.1 then 1 else -1, b.2)
  else let b := rng.nextBool; (if b.1 then 1 else -1, b.2)

/-- The constant `minSeparation`. -/
def minSeparation : Int := 3

/-- Lines 156-171: voice-crossing prevention. -/
def enforceSeparation (generateAbove : Bool) (inputPitch genNote : Int) : Int :=
  if generateAbove then
    if genNote ≤ inputPitch + minSeparation then inputPitch + 7 else genNote
  else
    if genNote ≥ inputPitch - minSeparation then inputPitch - 7 else genNote

/-- Lines 173-184: the clamp to [36,84] followed by the final tritone check and
its fallback. -/
def clampAndFallback (generateAbove : Bool) (inputPitch genNote : Int) : Int :=
  let genNote := jlimit 36 84 genNote
  if isTritone inputPitch genNote then
    let genNote := if generateAbove then inputPitch + 4 else inputPitch - 4
    jlimit 36 84 genNote
  else genNote

/-- Lines 189-192: append to the history and drop the ten oldest entries once
it holds more than 50. -/
def recordHistory (history : List NotePair) (p : NotePair) : List NotePair :=
  let history := history ++ [p]
  if history.length > 50 then history.drop 10 else history

/-- The method `generateValidCounterpoint`: the pitch returned, the engine after
the call and the random source after the call. -/
def generateValidCounterpoint (e : CounterpointEngine) (inputPitch : Int) (now : ℚ)
    (rng : Random) : Int × CounterpointEngine × Random :=
  let m := initialMotion e inputPitch rng
  let st := attemptLoop e inputPitch 8
    { genNote := inputPitch, tries := 0, motion := m.1, rng := m.2 }
  let genNote := enforceSeparation e.generateAbove inputPitch st.genNote
  let genNote := clampAndFallback e.generateAbove inputPitch genNote
  (genNote, { e with history := recordHistory e.history ⟨inputPitch, genNote, now⟩ }, st.rng)

/-- The method `generateCounterpoint`; `now` is the clock value it reads. -/
def generateCounterpoint (e : CounterpointEngine) (userMsg : MidiMessage) (now : ℚ)
    (rng : Random) : MidiMessage × CounterpointEngine × Random :=
  let inPitch := userMsg.getNoteNumber
  let r := generateValidCounterpoint e inPitch now rng
  let validPitch := r.1
  let e1 := r.2.1
  let activePairs := fun k => if k = inPitch then some validPitch else e1.activePairs k
  let history := e1.history ++ [⟨inPitch, validPitch, now⟩]
  let history := if history.length > 32 then history.tail else history
  (MidiMessage.noteOn 1 validPitch userMsg.getVelocity,
   { e1 with activePairs := activePairs, history := history }, r.2.2)

/-- The method `noteOffForInput`: the message returned and the engine after the
call. -/
def noteOffForInput (e : CounterpointEngine) (inputPitch : Int) :
    MidiMessage × CounterpointEngine :=
  match e.activePairs inputPitch with
  | none => (MidiMessage.empty, e)
  | some genPitch =>
    (MidiMessage.noteOff 1 genPitch,
     { e with activePairs := fun k => if k = inputPitch then none else e.activePairs k })

end CounterpointEngine

/-! ## ECCTypes -/

/-- The enum `ViolationKind`. -/
inductive ViolationKind where
  | ParallelFifth | ParallelOctave | VoiceCrossing | LargeLeap | DissonanceOnStrongBeat
  | HiddenFifthOctave | DirectMotionToPerfect | RangeExceeded | Consonance | Other
  deriving DecidableEq, Repr

/-- The struct `Violation`. -/
structure Violation where
  kind : ViolationKind
  severity : ℚ
  noteGen : Int
  notePrev : Int
  noteInput : Int
  time : ℚ
  description : String
  suggestion : String
  weight : ℚ

/-- The struct `ExplanationNotePair`. -/
structure ExplanationNotePair where
  input : Int
  gen : Int
  timeSec : ℚ
  deriving DecidableEq, Repr

/-! ## RuleChecker -/

/-- The file-static function `intervalName` of `RuleChecker.cpp`. -/
def intervalName (semitones : Int) : String :=
  let semitones := cMod (cMod semitones 12 + 12) 12
  if semitones = 0 then "unison"
  else if semitones = 1 then "minor 2nd"
  else if semitones = 2 then "major 2nd"
  else if semitones = 3 then "minor 3rd"
  else if semitones = 4 then "major 3rd"
  else if semitones = 5 then "perfect 4th"
  else if semitones = 6 then "tritone"
  else if semitones = 7 then "perfect 5th"
  else if semitones = 8 then "minor 6th"
  else if semitones = 9 then "major 6th"
  else if semitones = 10 then "minor 7th"
  else if semitones = 11 then "major 7th"
  else "unknown"

namespace RuleChecker

/-- The method `isPerfect`. -/
def isPerfect (s : Int) : Bool :=
  let s := cMod (stdAbs s) 12
  s == 0 || s == 7

/-- The method `isConsonant`. -/
def isConsonant (s : Int) : Bool :=
  let s := cMod (stdAbs s) 12
  s == 0 || s == 3 || s == 4 || s == 7 || s == 8 || s == 9

/-- Lines 42-50 of `evaluate`: the dissonance check and what it appends. -/
def dissonanceCheck (inP genP : Int) (t : ℚ) : List Violation :=
  if !isConsonant (genP - inP) then
    let interval := cMod (stdAbs (genP - inP)) 12
    [{ kind := .DissonanceOnStrongBeat, severity := 1.0, noteGen := genP, notePrev := 0,
       noteInput := inP, time := t,
       description := "Dissonant interval: " ++ intervalName interval ++
         " is not allowed in strict counterpoint.",
       suggestion := "Use consonant intervals: unison, 3rd, 4th, 5th, 6th, or octave.",
       weight := 0.7 }]
  else []

/-- Lines 68-75: the kind given to a parallel-perfect violation. -/
def parallelKind (prevInt currInt : Int) : ViolationKind :=
  if (prevInt = 0 ∨ prevInt = 12) ∧ (currInt = 0 ∨ currInt = 12) then .ParallelOctave
  else if (prevInt = 7 ∨ prevInt = 19) ∧ (currInt = 7 ∨ currInt = 19) then .ParallelFifth
  else .ParallelFifth

/-- The ternary of lines 59 and 60: 1 when the voice rose from `prev` to `cur`,
-1 when it fell, 0 when it stayed. -/
def direction (cur prev : Int) : Int :=
  if cur > prev then 1 else if cur < prev then -1 else 0

/-- Lines 62-80: the parallel-perfects block and what it appends. -/
def parallelPerfects (prevInt currInt dirIn dirGen inP genP : Int) (t : ℚ) :
    List Violation :=
  if isPerfect prevInt && isPerfect currInt && dirIn == dirGen && dirIn != 0 then
    [{ kind := parallelKind prevInt currInt, severity := 1.0, noteGen := genP,
       notePrev := 0, noteInput := inP, time := t,
       description := "Parallel motion between perfect intervals: " ++
         intervalName prevInt ++ " → " ++ intervalName currInt ++ ".",
       suggestion := "Avoid parallel 5ths/8ves; use contrary or oblique motion instead.",
       weight := 0.9 }]
  else []

/-- Lines 82-90: the hidden-perfects block and what it appends. -/
def hiddenPerfects (prevInt currInt dirIn dirGen inP genP : Int) (t : ℚ) :
    List Violation :=
  if !isPerfect prevInt && isPerfect currInt && dirIn == dirGen then
    [{ kind := .HiddenFifthOctave, severity := 1.0, noteGen := genP,
       notePrev := 0, noteInput := inP, time := t,
       description := "Hidden/direct motion to perfect interval: " ++
         intervalName prevInt ++ " → " ++ intervalName currInt ++ ".",
       suggestion :=
         "Avoid approaching perfect intervals in similar motion; use contrary motion.",
       weight := 0.6 }]
  else []

/-- Lines 52-91 of `evaluate`: the checks against `H.back()`, skipped when the
history is empty, and what they append (parallel perfects first, then hidden
perfects). -/
def historicalChecks (H : List ExplanationNotePair) (inP genP : Int) (t : ℚ) :
    List Violation :=
  match H.getLast? with
  | none => []
  | some prev =>
    let prevIn := prev.input
    let prevGen := prev.gen
    let prevInt := stdAbs (prevGen - prevIn)
    let currInt := stdAbs (genP - inP)
    let dirIn := direction inP prevIn
    let dirGen := direction genP prevGen
    parallelPerfects prevInt currInt dirIn dirGen inP genP t ++
      hiddenPerfects prevInt currInt dirIn dirGen inP genP t

/-- Lines 93-100 of `evaluate`: the final-note rule and what it appends. -/
def finalNoteRule (H : List ExplanationNotePair) (inP genP : Int) (t : ℚ)
    (inPhrase : Bool) : List Violation :=
  if !inPhrase && decide (H.length > 4) then
    if !isPerfect (genP - inP) then
      [{ kind := .Other, severity := 1.0, noteGen := genP, notePrev := 0,
         noteInput := inP, time := t,
         description := "Final sonority should be perfect (1 or 8).",
         suggestion := "End on a perfect consonance.",
         weight := 0.5 }]
    else []
  else []

/-- The method `evaluate`, overload on `std::vector<ExplanationNotePair>`: the
vector `out` after the three blocks have appended to it in order. -/
def evaluate (H : List ExplanationNotePair) (inP genP : Int) (t : ℚ) (inPhrase : Bool) :
    List Violation :=
  dissonanceCheck inP genP t ++ historicalChecks H inP genP t ++
    finalNoteRule H inP genP t inPhrase

/-- The test that selects the parallel-perfect violations of a result list. -/
def isParallelKind (v : Violation) : Bool :=
  v.kind == .ParallelOctave || v.kind == .ParallelFifth

end RuleChecker

/-! ## RuleChecker, NotePair overload -/

/-- The template `juce::jlimit` at type `float`. -/
def jlimitF (lowerLimit upperLimit valueToConstrain : ℚ) : ℚ :=
  if valueToConstrain < lowerLimit then lowerLimit
  else if upperLimit < valueToConstrain then upperLimit
  else valueToConstrain

namespace RuleChecker

/-- Lines 110-122 of the NotePair overload of `evaluate`: the entry that is always
pushed first, a `Consonance` note or a dissonance violation. -/
def currentIntervalEntry (inP genP : Int) (t : ℚ) : Violation :=
  let interval := cMod (stdAbs (genP - inP)) 12
  let name := intervalName interval
  let isConsonant : Bool :=
    interval == 0 || interval == 3 || interval == 4 ||
    interval == 7 || interval == 8 || interval == 9
  if isConsonant then
    { kind := .Consonance, severity := 0.0, noteGen := genP, notePrev := -1,
      noteInput := inP, time := t,
      description := "Consonant interval: " ++ name ++ " is acceptable.",
      suggestion := "", weight := 0.0 }
  else
    { kind := .DissonanceOnStrongBeat, severity := 1.0, noteGen := genP, notePrev := -1,
      noteInput := inP, time := t,
      description := "Dissonant interval: " ++ name ++
        " is not allowed in strict counterpoint.",
      suggestion := "Use consonant intervals: unison, 3rd, 4th, 5th, 6th, or octave.",
      weight := 1.0 }

/-- Lines 124-155 of the NotePair overload: the parallel check against the entry
`H[H.size() - 2]`, skipped when the history has fewer than two entries. -/
def parallelCheckNotePairs (H : List NotePair) (inP genP : Int) (t : ℚ) : List Violation :=
  if H.length ≥ 2 then
    match H[H.length - 2]? with
    | none => []
    | some prev =>
      let prevInt := cMod (stdAbs (prev.generatedPitch - prev.inputPitch)) 12
      let currInt := cMod (stdAbs (genP - inP)) 12
      let motionIn := direction inP prev.inputPitch
      let motionGen := direction genP prev.generatedPitch
      if (prevInt == 7 || prevInt == 0) && (currInt == 7 || currInt == 0) &&
          motionIn == motionGen && motionIn != 0 then
        [{ kind := parallelKind prevInt currInt, severity := 1.0, noteGen := genP,
           notePrev := prev.generatedPitch, noteInput := inP, time := t,
           description := "Parallel motion between perfect intervals (" ++
             intervalName prevInt ++ " → " ++ intervalName currInt ++ ").",
           suggestion := "→ Avoid parallel 5ths/8ves; use contrary motion.",
           weight := 0.9 }]
      else []
  else []

/-- The method `evaluate`, overload on `std::vector<NotePair>`. -/
def evaluateNotePairs (H : List NotePair) (inP genP : Int) (t : ℚ) : List Violation :=
  [currentIntervalEntry inP genP t] ++ parallelCheckNotePairs H inP genP t

/-- The method `evaluateScore`: start from 1.0, subtract 0.3 times the severity of
each entry, clamp to [0,1]. -/
def evaluateScore (H : List NotePair) (inP genP : Int) (t : ℚ) : ℚ :=
  let v := evaluateNotePairs H inP genP t
  let score := v.foldl (fun score x => score - 0.3 * x.severity) 1.0
  jlimitF 0.0 1.0 score

/-- The method `evaluateScore` with the rounding of its `float` arithmetic made
explicit: the literals `1.0f`, `0.3f`, `0.0f` are `fl` of their decimal value, and
the product and the subtraction of `score -= 0.3f * x.severity` are each rounded
by `fl`. The severities that `evaluate` stores are `0.0f` and `1.0f`, so the
product is a float already and a fused multiply-subtract gives the same value. -/
def evaluateScoreF (fl : ℚ → ℚ) (H : List NotePair) (inP genP : Int) (t : ℚ) : ℚ :=
  let v := evaluateNotePairs H inP genP t
  let score := v.foldl (fun score x => fl (score - fl (fl 0.3 * x.severity))) (fl 1.0)
  jlimitF (fl 0.0) (fl 1.0) score

end RuleChecker

/-! ## ModelBridge and the mock model -/

/-- The struct `Influence` of `ECCTypes.h`. -/
structure Influence where
  pitch : Int
  startSec : ℚ
  endSec : ℚ
  weight : ℚ

/-- The struct `Rationale` of `ECCTypes.h`, with its default member initialisers. -/
structure Rationale where
  candidatePitch : Int := -1
  prob : ℚ := 0.0
  summary : String := ""
  detail : String := ""
  influences : List Influence := []
  triggeredRules : List Violation := []

/-- The struct `ContextNote` of `ModelBridge.h`. -/
structure ContextNote where
  pitch : Int
  startSec : ℚ
  endSec : ℚ

/-- The abstract class `ModelBridge`: an implementation is its virtual method
`scoreCandidates (context, candidatePitches, keyRoot, isMajor)`. -/
abbrev ModelBridge := List ContextNote → List Int → Int → Bool → List Rationale

namespace MockModel

/-- The inner `for` loop of `MockModel::scoreCandidates` (lines 18-21). The first
argument is `i + 1` for the loop index `i` (0 once `i >= 0` fails), the second
is `added`. -/
def influenceLoop (ctx : List ContextNote) : Nat → Nat → List Influence
  | 0, _ => []
  | i + 1, added =>
    if added < 5 then
      let w : ℚ := 1.0 - (added : ℚ) * 0.18
      let w : ℚ := if w < 0 then 0 else w
      match ctx[i]? with
      | some n => ⟨n.pitch, n.startSec, n.endSec, w⟩ :: influenceLoop ctx i (added + 1)
      | none => influenceLoop ctx i (added + 1)
    else []

/-- The outer `for (int c : candidates)` loop. `U seed j` is the `j`-th value that
`std::uniform_real_distribution<float> U(0.05f, 0.95f)` draws from a
`std::mt19937` seeded with `seed`; the second argument counts the draws made. -/
def scoreLoop (U : Nat → Nat → ℚ) (seed : Nat) (ctx : List ContextNote) :
    List Int → Nat → List Rationale
  | [], _ => []
  | c :: cs, j =>
    { candidatePitch := c, prob := U seed j,
      summary := "Mock: favors recent context and diatonic steps.",
      influences := influenceLoop ctx ctx.length 0 } :: scoreLoop U seed ctx cs (j + 1)

/-- The method `MockModel::scoreCandidates`; the seed is computed in `unsigned`
arithmetic. -/
def scoreCandidates (U : Nat → Nat → ℚ) : ModelBridge :=
  fun ctx candidates _key _major =>
    let seed := (12345 + ctx.length + candidates.length) % 2 ^ 32
    scoreLoop U seed ctx candidates 0

end MockModel

/-! ## Single-precision rounding -/

/-- Rounding of a nonnegative rational to the nearest integer, a tie going to the
even neighbour (the IEEE 754 default rounding direction). -/
def roundHalfEven (x : ℚ) : Int :=
  let f := ⌊x⌋
  let r := x - f
  if r < 1 / 2 then f else if 1 / 2 < r then f + 1 else if f % 2 = 0 then f else f + 1

/-- The number of binary digits of `n` (0 for `n = 0`); the recursion is bounded by
`fuel`, and `fuel = n` is always enough. -/
def bitLength : Nat → Nat → Nat
  | 0, _ => 0
  | fuel + 1, n => if n = 0 then 0 else bitLength fuel (n / 2) + 1

/-- The binary exponent of a positive rational `x`: the `e` with
`2 ^ e ≤ x < 2 ^ (e + 1)`. The difference of the bit lengths of numerator and
denominator is `e` or `e + 1`. -/
def binaryExponent (x : ℚ) : Int :=
  let e0 : Int :=
    (bitLength x.num.natAbs x.num.natAbs : Int) - (bitLength x.den x.den : Int)
  if (2 : ℚ) ^ e0 ≤ x then e0 else e0 - 1

/-- The value of a C++ `float` (IEEE 754 binary32) nearest to `x`, ties to even:
24 significant bits, the spacing of the subnormal numbers `2 ^ (-149)` below
`2 ^ (-126)`. Overflow to infinity is not represented; the values rounded in
`suggestAlternativeNote` lie between -1 and 1. -/
def roundToFloat (x : ℚ) : ℚ :=
  if x = 0 then 0
  else
    let e := max (binaryExponent |x|) (-126)
    let q : ℚ := 2 ^ (e - 23)
    (if x < 0 then -1 else 1) * roundHalfEven (|x| / q) * q

/-! ## CounterpointEngine.suggestAlternativeNote -/

namespace CounterpointEngine

/-- The local table `consonantIntervals` of `suggestAlternativeNote` (interval,
base weight); it is a different table from the static one of
`generateValidCounterpoint`. The weights are the float literals `1.0f`, `0.9f`,
`0.8f`, `0.6f`, `0.5f`, that is `fl` of the decimal values. -/
def alternativeIntervals (fl : ℚ → ℚ) : List (Int × ℚ) :=
  [(3, fl 1.0), (4, fl 1.0), (8, fl 0.9), (9, fl 0.9), (12, fl 0.8), (7, fl 0.6),
   (0, fl 0.5)]

/-- The two guarded `push_back`s for one pitch pair: each pitch is kept when it
lies in [24,96]. -/
def pushInRange (first second : Int) (weight : ℚ) : List (Int × ℚ) :=
  (if first ≥ 24 ∧ first ≤ 96 then [(first, weight)] else []) ++
  (if second ≥ 24 ∧ second ≤ 96 then [(second, weight)] else [])

/-- Lines 203-221: the vector `alternatives`, first the table entries above and
below the input, then the steps of 1 and 2 semitones around the last generated
pitch of the history, with the float weight `0.7f`. -/
def alternatives (fl : ℚ → ℚ) (history : List NotePair) (inputPitch : Int) :
    List (Int × ℚ) :=
  (alternativeIntervals fl).flatMap
      (fun iw => pushInRange (inputPitch + iw.1) (inputPitch - iw.1) iw.2) ++
  (match history.getLast? with
   | none => []
   | some lastPair =>
     let lastGenPitch := lastPair.generatedPitch
     [1, 2].flatMap
       (fun step => pushInRange (lastGenPitch + step) (lastGenPitch - step) (fl 0.7)))

/-- Lines 230-234: the score `combined` of one alternative, the float product
`ruleScore * prob * baseWeight` evaluated left to right with each of the two
multiplications rounded; the default probability is the float literal `0.5f`. -/
def combinedScore (fl : ℚ → ℚ) (model : ModelBridge) (history : List NotePair)
    (inputPitch : Int) (now : ℚ) (a : Int × ℚ) : ℚ :=
  let ruleScore := RuleChecker.evaluateScoreF fl history inputPitch a.1 now
  let rationale := model [] [a.1] 0 true
  let prob : ℚ := match rationale with
    | [] => fl 0.5
    | r :: _ => r.prob
  fl (fl (ruleScore * prob) * a.2)

/-- The body of the selection loop of lines 226-241 on the pair
(`bestScore`, `bestAlternative`). -/
def selectStep (fl : ℚ → ℚ) (model : ModelBridge) (history : List NotePair)
    (inputPitch rejectedPitch : Int) (now : ℚ) (best : ℚ × Int) (a : Int × ℚ) :
    ℚ × Int :=
  if a.1 = rejectedPitch then best
  else if isTritone inputPitch a.1 then best
  else
    let combined := combinedScore fl model history inputPitch now a
    if combined > best.1 then (combined, a.1) else best

/-- The method `suggestAlternativeNote`; `model` is the engine's scoring model and
`bestScore` starts at the float literal `-1.0f`. -/
def suggestAlternativeNote (fl : ℚ → ℚ) (e : CounterpointEngine) (model : ModelBridge)
    (inputPitch rejectedPitch : Int) (now : ℚ) : Int :=
  ((alternatives fl e.history inputPitch).foldl
    (selectStep fl model e.history inputPitch rejectedPitch now) (fl (-1.0), inputPitch)).2

end CounterpointEngine

/-! ## ExplanationEngine -/

namespace ExplanationEngine

/-- The file-static function `candidateSet`. -/
def candidateSet (p : Int) : List Int :=
  [p - 9, p - 8, p - 5, p - 4, p - 3, p + 3, p + 4, p + 5, p + 8, p + 9]

/-- Lines 54-59 of `occlusionExplain`: the first influence that matches the erased
note in pitch and (within 10 ms) start time gets `delta` added to its weight,
clamped to [0,1]; the rest is untouched. -/
def attachDelta (erased : ContextNote) (delta : ℚ) : List Influence → List Influence
  | [] => []
  | inf :: rest =>
    if inf.pitch = erased.pitch ∧ |inf.startSec - erased.startSec| < 0.01 then
      { inf with weight := jlimitF 0.0 1.0 (inf.weight + delta) } :: rest
    else inf :: attachDelta erased delta rest

/-- One iteration `k` of the loop of `occlusionExplain` (lines 44-61). -/
def occlusionStep (model : ModelBridge) (ctx : List ContextNote) (keyRoot : Int)
    (isMajor : Bool) (r : Rationale) (k : Nat) : Rationale :=
  let idx := ctx.length - 1 - k
  match ctx[idx]? with
  | none => r
  | some erased =>
    let masked := ctx.eraseIdx idx
    let rescored := model masked [r.candidatePitch] keyRoot isMajor
    match rescored with
    | [] => r
    | first :: _ =>
      let delta := r.prob - first.prob
      { r with influences := attachDelta erased delta r.influences }

/-- The method `occlusionExplain`. -/
def occlusionExplain (model : ModelBridge) (ctx : List ContextNote) (base : Rationale)
    (keyRoot : Int) (isMajor : Bool) : Rationale :=
  if ctx.length < 2 then base
  else
    let K := min 5 ctx.length
    (List.range K).foldl (occlusionStep model ctx keyRoot isMajor) base

/-- Lines 19-21 of `explainChoice`: the first entry whose candidate pitch is
`genPitch`, a value-initialised `Rationale` when there is none, replaced by the
first entry when its candidate pitch is negative and the list is not empty. -/
def chooseRationale (rlist : List Rationale) (genPitch : Int) : Rationale :=
  let chosen : Rationale :=
    match rlist.find? (fun r => r.candidatePitch == genPitch) with
    | some r => r
    | none => {}
  match rlist with
  | [] => chosen
  | r0 :: _ => if chosen.candidatePitch < 0 then r0 else chosen

/-- The method `explainChoice`; `model` is the engine's scoring model. -/
def explainChoice (model : ModelBridge) (hist : List ExplanationNotePair)
    (ctx : List ContextNote) (inPitch genPitch keyRoot : Int) (isMajor : Bool)
    (nowSec : ℚ) (inPhrase : Bool) : Rationale :=
  let v := RuleChecker.evaluate hist inPitch genPitch nowSec inPhrase
  let rlist := model ctx (candidateSet inPitch) keyRoot isMajor
  let chosen := chooseRationale rlist genPitch
  let why := "Model favors consonant contrary motion; " ++
    ("context length=" ++ toString ctx.length)
  let chosen := { chosen with
    summary := why,
    detail := "Top influences are most recent notes; diatonic bias applied." }
  let chosen := { chosen with triggeredRules := chosen.triggeredRules ++ v }
  occlusionExplain model ctx chosen keyRoot isMajor

/-- The method `evaluateRules`. -/
def evaluateRules (hist : List ExplanationNotePair) (inputPitch genPitch : Int)
    (nowSec : ℚ) (inPhrase : Bool) : List Violation :=
  RuleChecker.evaluate hist inputPitch genPitch nowSec inPhrase

end ExplanationEngine

/-! ## Runs of the engine -/

namespace CounterpointEngine

/-- The record that one `generateCounterpoint` call appends (twice) to the
history: the input pitch, the pitch generated for it and the clock value. -/
def callRecord (e : CounterpointEngine) (userMsg : MidiMessage) (now : ℚ) (rng : Random) :
    NotePair :=
  ⟨userMsg.getNoteNumber, (generateValidCounterpoint e userMsg.getNoteNumber now rng).1, now⟩

/-- The engine states that can be reached from a freshly constructed engine
through the public methods `generateCounterpoint`, `noteOffForInput` and
`setGenerateAbove`, each together with the sequence of all records appended to
the history so far, in insertion order. -/
inductive Trace : CounterpointEngine → List NotePair → Prop where
  | fresh : Trace new []
  | generate (e : CounterpointEngine) (log : List NotePair) (userMsg : MidiMessage) (now : ℚ)
      (rng : Random) :
      Trace e log →
      Trace (generateCounterpoint e userMsg now rng).2.1
        (log ++ [callRecord e userMsg now rng, callRecord e userMsg now rng])
  | noteOff (e : CounterpointEngine) (log : List NotePair) (inputPitch : Int) :
      Trace e log → Trace (noteOffForInput e inputPitch).2 log
  | setAbove (e : CounterpointEngine) (log : List NotePair) (above : Bool) :
      Trace e log → Trace (setGenerateAbove e above) log

/-- A sequence of `generateCounterpoint` calls, one per (message, clock value)
pair, threading the engine and the random source. -/
def runCalls (e : CounterpointEngine) (rng : Random) :
    List (MidiMessage × ℚ) → CounterpointEngine × Random
  | [] => (e, rng)
  | c :: rest =>
    let r := generateCounterpoint e c.1 c.2 rng
    runCalls r.2.1 r.2.2 rest

/-- The records appended to the history during `runCalls`, in insertion order:
each call appends its record twice. -/
def runLog (e : CounterpointEngine) (rng : Random) :
    List (MidiMessage × ℚ) → List NotePair
  | [] => []
  | c :: rest =>
    let r := generateCounterpoint e c.1 c.2 rng
    [callRecord e c.1 c.2 rng, callRecord e c.1 c.2 rng] ++ runLog r.2.1 r.2.2 rest

/-- The history length after one `generateCounterpoint` call on a history of
length `s`, as the two appends and the two eviction rules give it. -/
def lengthAfterCall (s : Nat) : Nat :=
  if s ≤ 30 then s + 2 else if s ≤ 49 then s + 1 else s - 9

end CounterpointEngine

namespace ExplanationEngine

/-- The refined influence entry, in the words of the specification: `delta` is the
base probability minus the probability of the first rationale the model returns
for the single candidate `base.candidatePitch` on the context with the note at
index `i` removed; the weight becomes the old weight plus `delta` clamped to
[0,1], and the entry is unchanged when the model returns nothing. -/
def refinedInfluence (model : ModelBridge) (ctx : List ContextNote) (keyRoot : Int)
    (isMajor : Bool) (base : Rationale) (i : Nat) (inf : Influence) : Influence :=
  match model (ctx.eraseIdx i) [base.candidatePitch] keyRoot isMajor with
  | [] => inf
  | first :: _ =>
    { inf with weight := max 0 (min 1 (inf.weight + (base.prob - first.prob))) }

end ExplanationEngine

namespace ExplanationEngine

/-- The state of the rationale `r` inside the loop of `occlusionExplain` once the
iterations listed in `processed` have run, in the words of the specification:
every field but the influences is the one of `base`, and the influence at position
`j`, which stands for the context note with index `idx j`, carries the refined
weight when the iteration that masks that note has run and is the entry of
`base` otherwise. -/
def OcclusionProgress (model : ModelBridge) (ctx : List ContextNote) (keyRoot : Int)
    (isMajor : Bool) (base : Rationale) (idx : Nat → Nat) (processed : List Nat)
    (r : Rationale) : Prop :=
  r.candidatePitch = base.candidatePitch ∧ r.prob = base.prob ∧
  r.summary = base.summary ∧ r.detail = base.detail ∧
  r.triggeredRules = base.triggeredRules ∧
  r.influences.length = base.influences.length ∧
  ∀ j inf, base.influences[j]? = some inf →
    r.influences[j]? = some
      (if ctx.length - 1 - idx j ∈ processed then
        refinedInfluence model ctx keyRoot isMajor base (idx j) inf
       else inf)

end ExplanationEngine

/-! ## Arithmetic of intervals -/

theorem cMod_stdAbs (x : Int) : cMod (stdAbs x) 12 = |x| % 12 := by
  have h : stdAbs x = |x| := by
    unfold stdAbs
    split
    · rw [abs_of_neg (by assumption)]
    · rw [abs_of_nonneg (by omega)]
  rw [h]
  exact Int.tmod_eq_emod (abs_nonneg x) (by decide)

theorem abs_emod_cases (x : Int) (k : Int) :
    |x| % 12 = k ↔ (0 ≤ x ∧ x % 12 = k) ∨ (x < 0 ∧ (-x) % 12 = k) := by
  rcases lt_or_le x 0 with h | h
  · rw [abs_of_neg h]; constructor
    · intro h1; exact Or.inr ⟨h, h1⟩
    · rintro (⟨h1, _⟩ | ⟨_, h2⟩)
      · omega
      · exact h2
  · rw [abs_of_nonneg h]; constructor
    · intro h1; exact Or.inl ⟨h, h1⟩
    · rintro (⟨_, h2⟩ | ⟨h1, _⟩)
      · exact h2
      · omega

namespace CounterpointEngine

theorem isTritone_iff (p g : Int) : isTritone p g = true ↔ |g - p| % 12 = 6 := by
  simp [isTritone, cMod_stdAbs]

theorem jlimit_range (v : Int) : 36 ≤ jlimit 36 84 v ∧ jlimit 36 84 v ≤ 84 := by
  unfold jlimit
  split_ifs <;> omega

theorem pickInterval_mem (l : List IntervalOption) (r : ℚ) (s : Int)
    (h : pickInterval l r = some s) : s ∈ l.map (fun i => i.semitones) := by
  induction l generalizing r with
  | nil => simp [pickInterval] at h
  | cons i rest ih =>
    simp only [pickInterval] at h
    split at h
    · simp at h; simp [h]
    · simp [ih _ h]

theorem chooseWeightedInterval_mem (rng : Random) :
    (chooseWeightedInterval rng).1 ∈ [(3 : Int), 4, 7, 8, 9, 12] := by
  simp only [chooseWeightedInterval]
  cases hs : pickInterval consonantIntervals
      (rng.nextFloat.1 * consonantIntervals.foldl (fun t i => t + i.weight) 0) with
  | none => simp [consonantIntervals]
  | some s =>
    have := pickInterval_mem _ _ _ hs
    simpa [consonantIntervals] using this

end CounterpointEngine

namespace CounterpointEngine

theorem attemptLoop_genNote (e : CounterpointEngine) (p : Int) (fuel : Nat) (st : LoopState) :
    (attemptLoop e p fuel st).genNote = st.genNote ∨
    ∃ i ∈ [(3 : Int), 4, 7, 8, 9, 12],
      (attemptLoop e p fuel st).genNote = rangeAdjust e.generateAbove p i := by
  induction fuel generalizing st with
  | zero => left; rfl
  | succ n ih =>
    simp only [attemptLoop]
    split_ifs
    · right
      exact ⟨_, chooseWeightedInterval_mem st.rng, rfl⟩
    · right
      rcases ih _ with h | h
      · exact ⟨_, chooseWeightedInterval_mem st.rng, h⟩
      · exact h
    · right
      rcases ih _ with h | h
      · exact ⟨_, chooseWeightedInterval_mem st.rng, h⟩
      · exact h
    · left; rfl

theorem attemptLoop_candidate (e : CounterpointEngine) (p : Int) (fuel : Nat) (st : LoopState)
    (h : st.tries < 8) :
    ∃ i ∈ [(3 : Int), 4, 7, 8, 9, 12],
      (attemptLoop e p (fuel + 1) st).genNote = rangeAdjust e.generateAbove p i := by
  simp only [attemptLoop, h, if_true]
  split_ifs
  · exact ⟨_, chooseWeightedInterval_mem st.rng, rfl⟩
  · rcases attemptLoop_genNote e p fuel _ with h3 | h3
    · exact ⟨_, chooseWeightedInterval_mem st.rng, h3⟩
    · exact h3
  · rcases attemptLoop_genNote e p fuel _ with h3 | h3
    · exact ⟨_, chooseWeightedInterval_mem st.rng, h3⟩
    · exact h3

theorem generateValidCounterpoint_eq (e : CounterpointEngine) (p : Int) (now : ℚ) (rng : Random) :
    ∃ i ∈ [(3 : Int), 4, 7, 8, 9, 12],
      (generateValidCounterpoint e p now rng).1 =
        clampAndFallback e.generateAbove p
          (enforceSeparation e.generateAbove p (rangeAdjust e.generateAbove p i)) := by
  obtain ⟨i, hi, h⟩ := attemptLoop_candidate e p 7
    { genNote := p, tries := 0, motion := (initialMotion e p rng).1,
      rng := (initialMotion e p rng).2 } (by simp)
  refine ⟨i, hi, ?_⟩
  simp only [generateValidCounterpoint]
  rw [h]

/-- C1: for every input pitch (in particular every pitch in [24,96]), either
direction, every engine state and every stream of random draws, the pitch returned
by `generateValidCounterpoint` lies in [36,84]. -/
theorem generateValidCounterpoint_in_range (e : CounterpointEngine) (inputPitch : Int)
    (now : ℚ) (rng : Random) :
    36 ≤ (generateValidCounterpoint e inputPitch now rng).1 ∧
    (generateValidCounterpoint e inputPitch now rng).1 ≤ 84 := by
  simp only [generateValidCounterpoint, clampAndFallback]
  split_ifs <;> exact jlimit_range _

/-- C2 (failing input): with `generateAbove = true` and input pitch 90, from every
engine state and for every stream of random draws, `generateValidCounterpoint`
returns 84, which is a tritone below the input: the final fallback 90 + 4 = 94 is
re-clamped to 84. -/
theorem generateValidCounterpoint_tritone_above_90 (e : CounterpointEngine) (now : ℚ)
    (rng : Random) :
    (generateValidCounterpoint (setGenerateAbove e true) 90 now rng).1 = 84 ∧
    isTritone 90 84 = true ∧ |(84 : Int) - 90| % 12 = 6 := by
  refine ⟨?_, by decide, by decide⟩
  obtain ⟨i, hi, h⟩ := generateValidCounterpoint_eq (setGenerateAbove e true) 90 now rng
  rw [h]
  simp only [setGenerateAbove]
  simp only [List.mem_cons, List.mem_singleton, List.not_mem_nil, or_false] at hi
  rcases hi with rfl | rfl | rfl | rfl | rfl | rfl <;> decide

end CounterpointEngine

namespace CounterpointEngine

theorem isTritone_eq_false_iff (p g : Int) :
    isTritone p g = false ↔ ¬ ((g - p) % 12 = 6 ∨ (p - g) % 12 = 6) := by
  rw [← Bool.not_eq_true, isTritone_iff, abs_emod_cases]
  constructor
  · intro h; omega
  · intro h; omega

/-- Outside the two edge pitches 30 and 90 the final safety check does its job:
for every other input pitch in [24,96] the returned pitch is not a tritone from
the input. -/
theorem generateValidCounterpoint_no_tritone_off_edges (e : CounterpointEngine) (p : Int)
    (now : ℚ) (rng : Random) (h1 : 24 ≤ p) (h2 : p ≤ 96) (h30 : p ≠ 30) (h90 : p ≠ 90) :
    isTritone p (generateValidCounterpoint e p now rng).1 = false := by
  simp only [generateValidCounterpoint, clampAndFallback]
  split_ifs with h3 h4
  · rw [isTritone_eq_false_iff]; unfold jlimit; split_ifs <;> omega
  · rw [isTritone_eq_false_iff]; unfold jlimit; split_ifs <;> omega
  · simpa using h3

theorem rangeAdjust_in_range (above : Bool) (p i : Int)
    (h : 24 ≤ (if above then p + i else p - i) ∧ (if above then p + i else p - i) ≤ 96) :
    rangeAdjust above p i = if above then p + i else p - i := by
  unfold rangeAdjust
  cases above <;> (simp at h ⊢; intro h3; omega)

theorem enforceSeparation_eq (above : Bool) (p i : Int) :
    enforceSeparation above p (if above then p + i else p - i) =
      if above then (if i ≤ 3 then p + 7 else p + i) else (if i ≤ 3 then p - 7 else p - i) := by
  unfold enforceSeparation minSeparation
  cases above
  · simp only [Bool.false_eq_true, if_false]
    split_ifs <;> omega
  · simp

theorem clampAndFallback_id (above : Bool) (p x : Int) (h36 : 36 ≤ x) (h84 : x ≤ 84)
    (ht : isTritone p x = false) : clampAndFallback above p x = x := by
  have hx : jlimit 36 84 x = x := by unfold jlimit; split_ifs <;> omega
  simp [clampAndFallback, hx, ht]

/-- C3: on a fresh engine (with either direction configured) and for every input
pitch p in [48,72] and every stream of random draws, the returned pitch lies on
the configured side of the input at a distance from the weighted table:
g - p ∈ {3,4,7,8,9,12} when generating above, p - g ∈ {3,4,7,8,9,12} when
generating below. -/
theorem generateValidCounterpoint_consonant_side (above : Bool) (p : Int) (now : ℚ)
    (rng : Random) (h1 : 48 ≤ p) (h2 : p ≤ 72) :
    (above = true →
      (generateValidCounterpoint (setGenerateAbove new above) p now rng).1 - p
        ∈ [(3 : Int), 4, 7, 8, 9, 12]) ∧
    (above = false →
      p - (generateValidCounterpoint (setGenerateAbove new above) p now rng).1
        ∈ [(3 : Int), 4, 7, 8, 9, 12]) := by
  obtain ⟨i, hi, h⟩ := generateValidCounterpoint_eq (setGenerateAbove new above) p now rng
  rw [h]
  simp only [setGenerateAbove]
  simp only [List.mem_cons, List.mem_singleton, List.not_mem_nil, or_false] at hi ⊢
  have hi3 : 3 ≤ i ∧ i ≤ 12 := by omega
  rw [rangeAdjust_in_range above p i (by cases above <;> simp <;> omega),
    enforceSeparation_eq]
  constructor
  · rintro rfl
    simp only [if_true]
    rw [clampAndFallback_id _ _ _ (by split_ifs <;> omega) (by split_ifs <;> omega)
      (by rw [isTritone_eq_false_iff]; split_ifs <;> omega)]
    split_ifs <;> omega
  · rintro rfl
    simp only [Bool.false_eq_true, if_false]
    rw [clampAndFallback_id _ _ _ (by split_ifs <;> omega) (by split_ifs <;> omega)
      (by rw [isTritone_eq_false_iff]; split_ifs <;> omega)]
    split_ifs <;> omega

/-- Witness for C3 at the scenario pitch C4 = 60, generating above. -/
theorem generateValidCounterpoint_consonant_side_witness :
    (48 : Int) ≤ 60 ∧ (60 : Int) ≤ 72 ∧
    ((generateValidCounterpoint (setGenerateAbove new true) 60 0
        ⟨fun _ => 0, fun _ => true, 0⟩).1 - 60 ∈ [(3 : Int), 4, 7, 8, 9, 12]) :=
  ⟨by decide, by decide,
   (generateValidCounterpoint_consonant_side true 60 0 ⟨fun _ => 0, fun _ => true, 0⟩
      (by decide) (by decide)).1 rfl⟩

end CounterpointEngine

namespace CounterpointEngine

theorem parallelPerfect_of_unset (e : CounterpointEngine) (p g : Int)
    (h : e.lastGeneratedNote = -1 ∨ e.lastInputNote = -1) : parallelPerfect e p g = false := by
  unfold parallelPerfect
  rw [if_neg]
  rintro ⟨h1, h2⟩
  rcases h with h | h
  · exact h1 h
  · exact h2 h

theorem attemptLoop_accept (e : CounterpointEngine) (p : Int) (fuel : Nat) (st : LoopState)
    (h : st.tries < 8)
    (ht : isTritone p (rangeAdjust e.generateAbove p (chooseWeightedInterval st.rng).1) = false)
    (hp : parallelPerfect e p
      (rangeAdjust e.generateAbove p (chooseWeightedInterval st.rng).1) = false) :
    attemptLoop e p (fuel + 1) st =
      { st with genNote := rangeAdjust e.generateAbove p (chooseWeightedInterval st.rng).1,
                rng := (chooseWeightedInterval st.rng).2 } := by
  simp [attemptLoop, h, ht, hp]

theorem chooseWeightedInterval_fifth (rng : Random) (h : rng.floats rng.pos = 0.55) :
    chooseWeightedInterval rng = (7, { rng with pos := rng.pos + 1 }) := by
  simp only [chooseWeightedInterval, Random.nextFloat, h, consonantIntervals, List.foldl,
    pickInterval]
  norm_num

/-- C4 (failing input): on a fresh engine generating above, the first call on
input 60 draws a fifth and returns 67; the second call on the higher input 62
again draws a fifth as its first interval and returns 62 + 7 = 69 after that
single draw (two generator calls per invocation: the motion coin and one
interval), whatever the later draws would have been. The candidate is not
rejected: `lastGeneratedNote` and `lastInputNote` are still -1. -/
theorem generateValidCounterpoint_parallel_fifth_kept (f : Nat → ℚ) (b : Nat → Bool)
    (now1 now2 : ℚ) :
    (generateValidCounterpoint new 60 now1
        ⟨fun n => if n ≤ 3 then 0.55 else f n, b, 0⟩).1 = 67 ∧
    (generateValidCounterpoint
        (generateValidCounterpoint new 60 now1
          ⟨fun n => if n ≤ 3 then 0.55 else f n, b, 0⟩).2.1 62 now2
        (generateValidCounterpoint new 60 now1
          ⟨fun n => if n ≤ 3 then 0.55 else f n, b, 0⟩).2.2).1 = 69 ∧
    (generateValidCounterpoint
        (generateValidCounterpoint new 60 now1
          ⟨fun n => if n ≤ 3 then 0.55 else f n, b, 0⟩).2.1 62 now2
        (generateValidCounterpoint new 60 now1
          ⟨fun n => if n ≤ 3 then 0.55 else f n, b, 0⟩).2.2).2.2.pos = 4 ∧
    (generateValidCounterpoint new 60 now1
        ⟨fun n => if n ≤ 3 then 0.55 else f n, b, 0⟩).2.1.lastGeneratedNote = -1 ∧
    ((69 : Int) - 62) % 12 = 7 := by
  have c1 : chooseWeightedInterval ⟨fun n => if n ≤ 3 then 0.55 else f n, b, 1⟩ =
      (7, ⟨fun n => if n ≤ 3 then 0.55 else f n, b, 2⟩) :=
    chooseWeightedInterval_fifth _ (by simp)
  have c2 : chooseWeightedInterval ⟨fun n => if n ≤ 3 then 0.55 else f n, b, 3⟩ =
      (7, ⟨fun n => if n ≤ 3 then 0.55 else f n, b, 4⟩) :=
    chooseWeightedInterval_fifth _ (by simp)
  have m1 : initialMotion new 60 ⟨fun n => if n ≤ 3 then 0.55 else f n, b, 0⟩ =
      (if b 0 = true then 1 else -1, ⟨fun n => if n ≤ 3 then 0.55 else f n, b, 1⟩) := by
    simp [initialMotion, new, Random.nextBool]
  have l1 : attemptLoop new 60 8
      { genNote := 60, tries := 0, motion := if b 0 = true then 1 else -1,
        rng := ⟨fun n => if n ≤ 3 then 0.55 else f n, b, 1⟩ } =
      { genNote := 67, tries := 0, motion := if b 0 = true then 1 else -1,
        rng := ⟨fun n => if n ≤ 3 then 0.55 else f n, b, 2⟩ } := by
    rw [attemptLoop_accept _ _ _ _ (by simp) (by rw [c1]; rfl)
      (parallelPerfect_of_unset _ _ _ (Or.inl rfl)), c1]
    rfl
  have r1 : generateValidCounterpoint new 60 now1
      ⟨fun n => if n ≤ 3 then 0.55 else f n, b, 0⟩ =
      (67, { new with history := [⟨60, 67, now1⟩] },
        ⟨fun n => if n ≤ 3 then 0.55 else f n, b, 2⟩) := by
    simp only [generateValidCounterpoint, m1, l1]
    rfl
  rw [r1]
  have m2 : initialMotion { new with history := [⟨60, 67, now1⟩] } 62
      ⟨fun n => if n ≤ 3 then 0.55 else f n, b, 2⟩ =
      (if b 2 = true then 1 else -1, ⟨fun n => if n ≤ 3 then 0.55 else f n, b, 3⟩) := by
    simp [initialMotion, new, Random.nextBool]
  have l2 : attemptLoop { new with history := [⟨60, 67, now1⟩] } 62 8
      { genNote := 62, tries := 0, motion := if b 2 = true then 1 else -1,
        rng := ⟨fun n => if n ≤ 3 then 0.55 else f n, b, 3⟩ } =
      { genNote := 69, tries := 0, motion := if b 2 = true then 1 else -1,
        rng := ⟨fun n => if n ≤ 3 then 0.55 else f n, b, 4⟩ } := by
    rw [attemptLoop_accept _ _ _ _ (by simp) (by rw [c2]; rfl)
      (parallelPerfect_of_unset _ _ _ (Or.inl rfl)), c2]
    rfl
  have r2 : generateValidCounterpoint { new with history := [⟨60, 67, now1⟩] } 62 now2
      ⟨fun n => if n ≤ 3 then 0.55 else f n, b, 2⟩ =
      (69, { new with history := [⟨60, 67, now1⟩, ⟨62, 69, now2⟩] },
        ⟨fun n => if n ≤ 3 then 0.55 else f n, b, 4⟩) := by
    simp only [generateValidCounterpoint, m2, l2]
    rfl
  exact ⟨rfl, by rw [r2], by rw [r2], rfl, by decide⟩

end CounterpointEngine

namespace CounterpointEngine

/-- The routine `generateValidCounterpoint` writes the history only: the fields
`lastGeneratedNote`, `lastInputNote`, `generateAbove` and the active pairs are
what they were before the call. -/
theorem generateValidCounterpoint_fields (e : CounterpointEngine) (p : Int) (now : ℚ)
    (rng : Random) :
    (generateValidCounterpoint e p now rng).2.1.lastGeneratedNote = e.lastGeneratedNote ∧
    (generateValidCounterpoint e p now rng).2.1.lastInputNote = e.lastInputNote ∧
    (generateValidCounterpoint e p now rng).2.1.generateAbove = e.generateAbove ∧
    (generateValidCounterpoint e p now rng).2.1.activePairs = e.activePairs :=
  ⟨rfl, rfl, rfl, rfl⟩

/-- C5: round trip. From any engine state (a prior mapping for the input pitch
included), `generateCounterpoint` on a message with note number p returns the
note-on of some generated pitch g; the `noteOffForInput p` that follows returns
the note-off of that same g, and a second `noteOffForInput p` returns the
default message that signals "no mapping". -/
theorem noteOff_after_generate_roundtrip (e : CounterpointEngine) (userMsg : MidiMessage)
    (now : ℚ) (rng : Random) :
    ∃ g : Int,
      (generateCounterpoint e userMsg now rng).1 = MidiMessage.noteOn 1 g userMsg.getVelocity ∧
      g = (generateValidCounterpoint e userMsg.getNoteNumber now rng).1 ∧
      (noteOffForInput (generateCounterpoint e userMsg now rng).2.1
          userMsg.getNoteNumber).1 = MidiMessage.noteOff 1 g ∧
      (noteOffForInput
          (noteOffForInput (generateCounterpoint e userMsg now rng).2.1
            userMsg.getNoteNumber).2
          userMsg.getNoteNumber).1 = MidiMessage.empty := by
  refine ⟨(generateValidCounterpoint e userMsg.getNoteNumber now rng).1, rfl, rfl, ?_, ?_⟩
  · simp [noteOffForInput, generateCounterpoint]
  · simp [noteOffForInput, generateCounterpoint]

/-- C6: for every engine state and every pitch p without an active mapping,
`noteOffForInput p` returns the default "no mapping" message and the engine
(active pairs, history and every other field) is left as it was. -/
theorem noteOffForInput_unmapped (e : CounterpointEngine) (p : Int)
    (h : e.activePairs p = none) :
    noteOffForInput e p = (MidiMessage.empty, e) := by
  simp [noteOffForInput, h]

/-- Witness for C6: a stray note-off for pitch 60 on the fresh engine. -/
theorem noteOffForInput_unmapped_witness :
    new.activePairs 60 = none ∧ noteOffForInput new 60 = (MidiMessage.empty, new) :=
  ⟨rfl, noteOffForInput_unmapped new 60 rfl⟩

end CounterpointEngine

namespace RuleChecker

theorem stdAbs_eq_abs (x : Int) : stdAbs x = |x| := by
  unfold stdAbs
  split
  · rw [abs_of_neg (by assumption)]
  · rw [abs_of_nonneg (by omega)]

theorem isPerfect_iff (s : Int) : isPerfect s = true ↔ (|s| % 12 = 0 ∨ |s| % 12 = 7) := by
  simp [isPerfect, cMod_stdAbs]

theorem isPerfect_stdAbs (x : Int) : isPerfect (stdAbs x) = isPerfect x := by
  simp [isPerfect, stdAbs_eq_abs]

theorem isConsonant_iff (s : Int) :
    isConsonant s = true ↔ |s| % 12 ∈ [(0 : Int), 3, 4, 7, 8, 9] := by
  simp [isConsonant, cMod_stdAbs, or_assoc]

theorem dissonanceCheck_kind (inP genP : Int) (t : ℚ) (v : Violation)
    (hv : v ∈ dissonanceCheck inP genP t) :
    v.kind = .DissonanceOnStrongBeat ∧ v.severity = 1.0 ∧ v.weight = 0.7 := by
  unfold dissonanceCheck at hv
  split at hv
  · simp only [List.mem_singleton] at hv
    subst hv
    exact ⟨rfl, rfl, rfl⟩
  · simp at hv

theorem dissonanceCheck_exists (inP genP : Int) (t : ℚ) :
    (∃ v ∈ dissonanceCheck inP genP t, v.kind = .DissonanceOnStrongBeat) ↔
      isConsonant (genP - inP) = false := by
  unfold dissonanceCheck
  cases h : isConsonant (genP - inP) <;> simp

theorem parallelKind_cases (a b : Int) :
    parallelKind a b = .ParallelOctave ∨ parallelKind a b = .ParallelFifth := by
  unfold parallelKind
  split_ifs <;> simp

theorem parallelPerfects_kind (prevInt currInt dirIn dirGen inP genP : Int) (t : ℚ)
    (v : Violation) (hv : v ∈ parallelPerfects prevInt currInt dirIn dirGen inP genP t) :
    (v.kind = .ParallelOctave ∨ v.kind = .ParallelFifth) ∧ v.severity = 1.0 ∧
      v.weight = 0.9 ∧ v.kind = parallelKind prevInt currInt := by
  unfold parallelPerfects at hv
  split at hv
  · simp only [List.mem_singleton] at hv
    subst hv
    exact ⟨parallelKind_cases _ _, rfl, rfl, rfl⟩
  · simp at hv

theorem hiddenPerfects_kind (prevInt currInt dirIn dirGen inP genP : Int) (t : ℚ)
    (v : Violation) (hv : v ∈ hiddenPerfects prevInt currInt dirIn dirGen inP genP t) :
    v.kind = .HiddenFifthOctave ∧ v.severity = 1.0 ∧ v.weight = 0.6 := by
  unfold hiddenPerfects at hv
  split at hv
  · simp only [List.mem_singleton] at hv
    subst hv
    exact ⟨rfl, rfl, rfl⟩
  · simp at hv

theorem historicalChecks_kind (H : List ExplanationNotePair) (inP genP : Int) (t : ℚ)
    (v : Violation) (hv : v ∈ historicalChecks H inP genP t) :
    ((v.kind = .ParallelOctave ∨ v.kind = .ParallelFifth) ∧ v.severity = 1.0 ∧ v.weight = 0.9) ∨
    (v.kind = .HiddenFifthOctave ∧ v.severity = 1.0 ∧ v.weight = 0.6) := by
  unfold historicalChecks at hv
  split at hv
  · simp at hv
  · simp only [List.mem_append] at hv
    rcases hv with hv | hv
    · have := parallelPerfects_kind _ _ _ _ _ _ _ _ hv
      exact Or.inl ⟨this.1, this.2.1, this.2.2.1⟩
    · exact Or.inr (hiddenPerfects_kind _ _ _ _ _ _ _ _ hv)

theorem finalNoteRule_kind (H : List ExplanationNotePair) (inP genP : Int) (t : ℚ)
    (inPhrase : Bool) (v : Violation) (hv : v ∈ finalNoteRule H inP genP t inPhrase) :
    v.kind = .Other ∧ v.severity = 1.0 ∧ v.weight = 0.5 := by
  unfold finalNoteRule at hv
  split at hv
  · split at hv
    · simp only [List.mem_singleton] at hv
      subst hv
      exact ⟨rfl, rfl, rfl⟩
    · simp at hv
  · simp at hv

theorem mem_evaluate (H : List ExplanationNotePair) (inP genP : Int) (t : ℚ)
    (inPhrase : Bool) (v : Violation) :
    v ∈ evaluate H inP genP t inPhrase ↔
      v ∈ dissonanceCheck inP genP t ∨ v ∈ historicalChecks H inP genP t ∨
      v ∈ finalNoteRule H inP genP t inPhrase := by
  simp [evaluate, or_assoc]

end RuleChecker

namespace RuleChecker

theorem direction_same_moving (a b c d : Int) :
    ((direction a b == direction c d && direction a b != 0) = true) ↔
      ((b < a ∧ d < c) ∨ (a < b ∧ c < d)) := by
  unfold direction
  simp only [Bool.and_eq_true, beq_iff_eq, bne_iff_ne, ne_eq, gt_iff_lt]
  split_ifs <;> simp <;> omega

theorem direction_same (a b c d : Int) :
    ((direction a b == direction c d) = true) ↔
      ((b < a ∧ d < c) ∨ (a < b ∧ c < d) ∨ (a = b ∧ c = d)) := by
  unfold direction
  simp only [beq_iff_eq, gt_iff_lt]
  split_ifs <;> simp <;> omega

theorem parallelPerfects_exists (prevInt currInt dirIn dirGen inP genP : Int) (t : ℚ) :
    (∃ v ∈ parallelPerfects prevInt currInt dirIn dirGen inP genP t,
        v.kind = .ParallelOctave ∨ v.kind = .ParallelFifth) ↔
      (isPerfect prevInt && isPerfect currInt && dirIn == dirGen && dirIn != 0) = true := by
  unfold parallelPerfects
  split
  · next h => simpa [h] using parallelKind_cases prevInt currInt
  · next h => simp [h]

theorem hiddenPerfects_exists (prevInt currInt dirIn dirGen inP genP : Int) (t : ℚ) :
    (∃ v ∈ hiddenPerfects prevInt currInt dirIn dirGen inP genP t,
        v.kind = .HiddenFifthOctave) ↔
      (!isPerfect prevInt && isPerfect currInt && dirIn == dirGen) = true := by
  unfold hiddenPerfects
  split
  · next h => simp [h]
  · next h => simp [h]

/-- C7 (counterexample): for input 67 and generated 60 (a fifth below) the signed
difference has remainder (60 - 67) mod 12 = 5, which is outside {0,3,4,7,8,9},
yet `evaluate` reports no dissonance. -/
theorem evaluate_dissonance_signed_counterexample :
    ¬ ((∃ v ∈ evaluate [] 67 60 0 true, v.kind = .DissonanceOnStrongBeat) ↔
        ((60 : Int) - 67) % 12 ∉ [(0 : Int), 3, 4, 7, 8, 9]) := by
  intro h
  obtain ⟨v, hv, hk⟩ := h.mpr (by decide)
  rw [mem_evaluate] at hv
  rcases hv with hv | hv | hv
  · have : dissonanceCheck 67 60 0 = [] := by
      unfold dissonanceCheck
      rw [if_neg (by decide)]
    simp [this] at hv
  · simp [historicalChecks] at hv
  · simp [finalNoteRule] at hv

/-- C7 (amended): the ExplanationNotePair overload of `evaluate` returns a
`DissonanceOnStrongBeat` violation exactly when the absolute interval
|genPitch - inputPitch| mod 12 is not in {0,3,4,7,8,9}, and every such violation
has severity 1.0 and weight 0.7. -/
theorem evaluate_dissonance_iff (H : List ExplanationNotePair) (inP genP : Int) (t : ℚ)
    (inPhrase : Bool) :
    ((∃ v ∈ evaluate H inP genP t inPhrase, v.kind = .DissonanceOnStrongBeat) ↔
        |genP - inP| % 12 ∉ [(0 : Int), 3, 4, 7, 8, 9]) ∧
    (∀ v ∈ evaluate H inP genP t inPhrase, v.kind = .DissonanceOnStrongBeat →
        v.severity = 1.0 ∧ v.weight = 0.7) := by
  constructor
  · rw [← isConsonant_iff, Bool.not_eq_true, ← dissonanceCheck_exists inP genP t]
    constructor
    · rintro ⟨v, hv, hk⟩
      rw [mem_evaluate] at hv
      rcases hv with hv | hv | hv
      · exact ⟨v, hv, hk⟩
      · rcases historicalChecks_kind _ _ _ _ _ hv with h | h
        · rcases h.1 with h1 | h1 <;> rw [h1] at hk <;> cases hk
        · rw [h.1] at hk; cases hk
      · rw [(finalNoteRule_kind _ _ _ _ _ _ hv).1] at hk; cases hk
    · rintro ⟨v, hv, hk⟩
      exact ⟨v, (mem_evaluate _ _ _ _ _ _).mpr (Or.inl hv), hk⟩
  · intro v hv hk
    rw [mem_evaluate] at hv
    rcases hv with hv | hv | hv
    · exact (dissonanceCheck_kind _ _ _ _ hv).2
    · rcases historicalChecks_kind _ _ _ _ _ hv with h | h
      · rcases h.1 with h1 | h1 <;> rw [h1] at hk <;> cases hk
      · rw [h.1] at hk; cases hk
    · rw [(finalNoteRule_kind _ _ _ _ _ _ hv).1] at hk; cases hk

end RuleChecker

namespace RuleChecker

theorem isParallelKind_iff (v : Violation) :
    isParallelKind v = true ↔ (v.kind = .ParallelOctave ∨ v.kind = .ParallelFifth) := by
  simp [isParallelKind]

theorem parallel_mem_evaluate (H : List ExplanationNotePair) (inP genP : Int) (t : ℚ)
    (inPhrase : Bool) :
    (∃ v ∈ evaluate H inP genP t inPhrase, v.kind = .ParallelOctave ∨ v.kind = .ParallelFifth) ↔
    ∃ prev, H.getLast? = some prev ∧
      ∃ v ∈ parallelPerfects (stdAbs (prev.gen - prev.input)) (stdAbs (genP - inP))
          (direction inP prev.input) (direction genP prev.gen) inP genP t,
        v.kind = .ParallelOctave ∨ v.kind = .ParallelFifth := by
  constructor
  · rintro ⟨v, hv, hk⟩
    rw [mem_evaluate] at hv
    rcases hv with hv | hv | hv
    · rw [(dissonanceCheck_kind _ _ _ _ hv).1] at hk; simp at hk
    · unfold historicalChecks at hv
      split at hv
      · simp at hv
      · next prev hprev =>
        simp only [List.mem_append] at hv
        rcases hv with hv | hv
        · exact ⟨prev, hprev, v, hv, hk⟩
        · rw [(hiddenPerfects_kind _ _ _ _ _ _ _ _ hv).1] at hk; simp at hk
    · rw [(finalNoteRule_kind _ _ _ _ _ _ hv).1] at hk; simp at hk
  · rintro ⟨prev, hprev, v, hv, hk⟩
    refine ⟨v, ?_, hk⟩
    rw [mem_evaluate]
    right; left
    simp only [historicalChecks, hprev, List.mem_append]
    exact Or.inl hv

theorem hidden_mem_evaluate (H : List ExplanationNotePair) (inP genP : Int) (t : ℚ)
    (inPhrase : Bool) :
    (∃ v ∈ evaluate H inP genP t inPhrase, v.kind = .HiddenFifthOctave) ↔
    ∃ prev, H.getLast? = some prev ∧
      ∃ v ∈ hiddenPerfects (stdAbs (prev.gen - prev.input)) (stdAbs (genP - inP))
          (direction inP prev.input) (direction genP prev.gen) inP genP t,
        v.kind = .HiddenFifthOctave := by
  constructor
  · rintro ⟨v, hv, hk⟩
    rw [mem_evaluate] at hv
    rcases hv with hv | hv | hv
    · rw [(dissonanceCheck_kind _ _ _ _ hv).1] at hk; simp at hk
    · unfold historicalChecks at hv
      split at hv
      · simp at hv
      · next prev hprev =>
        simp only [List.mem_append] at hv
        rcases hv with hv | hv
        · rcases (parallelPerfects_kind _ _ _ _ _ _ _ _ hv).1 with h1 | h1 <;>
            rw [h1] at hk <;> simp at hk
        · exact ⟨prev, hprev, v, hv, hk⟩
    · rw [(finalNoteRule_kind _ _ _ _ _ _ hv).1] at hk; simp at hk
  · rintro ⟨prev, hprev, v, hv, hk⟩
    refine ⟨v, ?_, hk⟩
    rw [mem_evaluate]
    right; left
    simp only [historicalChecks, hprev, List.mem_append]
    exact Or.inr hv

theorem filter_parallel_length (H : List ExplanationNotePair) (inP genP : Int) (t : ℚ)
    (inPhrase : Bool) :
    ((evaluate H inP genP t inPhrase).filter isParallelKind).length ≤ 1 := by
  have hd : (dissonanceCheck inP genP t).filter isParallelKind = [] := by
    rw [List.filter_eq_nil_iff]
    intro v hv
    rw [isParallelKind_iff, (dissonanceCheck_kind _ _ _ _ hv).1]
    simp
  have hf : (finalNoteRule H inP genP t inPhrase).filter isParallelKind = [] := by
    rw [List.filter_eq_nil_iff]
    intro v hv
    rw [isParallelKind_iff, (finalNoteRule_kind _ _ _ _ _ _ hv).1]
    simp
  have hh : ((historicalChecks H inP genP t).filter isParallelKind).length ≤ 1 := by
    unfold historicalChecks
    split
    · simp
    · next prev _ =>
      have h2 : (hiddenPerfects (stdAbs (prev.gen - prev.input)) (stdAbs (genP - inP))
          (direction inP prev.input) (direction genP prev.gen) inP genP t).filter
            isParallelKind = [] := by
        rw [List.filter_eq_nil_iff]
        intro v hv
        rw [isParallelKind_iff, (hiddenPerfects_kind _ _ _ _ _ _ _ _ hv).1]
        simp
      have h1 : (parallelPerfects (stdAbs (prev.gen - prev.input)) (stdAbs (genP - inP))
          (direction inP prev.input) (direction genP prev.gen) inP genP t).length ≤ 1 := by
        unfold parallelPerfects
        split <;> simp
      simp only [List.filter_append, h2, List.append_nil]
      exact le_trans (List.length_filter_le _ _) h1
  simp only [evaluate, List.filter_append, hd, hf, List.append_nil, List.nil_append]
  exact hh

/-- C8: the ExplanationNotePair overload of `evaluate` returns a parallel-perfect
violation (kind `ParallelOctave` or `ParallelFifth`) exactly when the history is
non-empty, the absolute interval of its last entry and the absolute interval of
the candidate are both perfect (0 or 7 mod 12), and both voices moved in the same
direction from the last entry to the candidate (both up or both down); every such
violation has severity 1.0 and weight 0.9, and the result holds at most one. -/
theorem evaluate_parallel_iff (H : List ExplanationNotePair) (inP genP : Int) (t : ℚ)
    (inPhrase : Bool) :
    ((∃ v ∈ evaluate H inP genP t inPhrase,
        v.kind = .ParallelOctave ∨ v.kind = .ParallelFifth) ↔
      ∃ prev, H.getLast? = some prev ∧
        (|prev.gen - prev.input| % 12 = 0 ∨ |prev.gen - prev.input| % 12 = 7) ∧
        (|genP - inP| % 12 = 0 ∨ |genP - inP| % 12 = 7) ∧
        ((prev.input < inP ∧ prev.gen < genP) ∨ (inP < prev.input ∧ genP < prev.gen))) ∧
    (∀ v ∈ evaluate H inP genP t inPhrase,
        (v.kind = .ParallelOctave ∨ v.kind = .ParallelFifth) →
        v.severity = 1.0 ∧ v.weight = 0.9) ∧
    ((evaluate H inP genP t inPhrase).filter isParallelKind).length ≤ 1 := by
  refine ⟨?_, ?_, filter_parallel_length H inP genP t inPhrase⟩
  · rw [parallel_mem_evaluate]
    apply exists_congr
    intro prev
    apply and_congr_right
    intro _
    rw [parallelPerfects_exists, Bool.and_assoc, Bool.and_eq_true, Bool.and_eq_true,
      direction_same_moving, isPerfect_stdAbs, isPerfect_stdAbs, isPerfect_iff, isPerfect_iff]
    tauto
  · intro v hv hk
    rw [mem_evaluate] at hv
    rcases hv with hv | hv | hv
    · rw [(dissonanceCheck_kind _ _ _ _ hv).1] at hk; simp at hk
    · rcases historicalChecks_kind _ _ _ _ _ hv with h | h
      · exact h.2
      · rw [h.1] at hk; simp at hk
    · rw [(finalNoteRule_kind _ _ _ _ _ _ hv).1] at hk; simp at hk

/-- C9 (failing input): the history ends with the pair 60/84 (two octaves) and the
candidate is 62/86 (two octaves), both voices rising. Both absolute intervals are
0 mod 12, the parallel-perfect check fires, and the violation it appends has kind
`ParallelFifth`, not `ParallelOctave`: the classification compares the intervals
with 0 and 12 without reducing them mod 12. -/
theorem evaluate_compound_octave_kind :
    (evaluate [⟨60, 84, 0⟩] 62 86 1 true).map (fun v => v.kind) = [.ParallelFifth] ∧
    |(84 : Int) - 60| % 12 = 0 ∧ |(86 : Int) - 62| % 12 = 0 := by
  refine ⟨by decide, by decide, by decide⟩

/-- C10: the ExplanationNotePair overload of `evaluate` returns a
`HiddenFifthOctave` violation exactly when the history is non-empty, the absolute
interval of its last entry is not perfect, the candidate's absolute interval is
perfect (0 or 7 mod 12), and both voices moved in the same direction (both up or
both down, never both stationary); every such violation has severity 1.0 and
weight 0.6. -/
theorem evaluate_hidden_iff (H : List ExplanationNotePair) (inP genP : Int) (t : ℚ)
    (inPhrase : Bool) :
    ((∃ v ∈ evaluate H inP genP t inPhrase, v.kind = .HiddenFifthOctave) ↔
      ∃ prev, H.getLast? = some prev ∧
        ¬ (|prev.gen - prev.input| % 12 = 0 ∨ |prev.gen - prev.input| % 12 = 7) ∧
        (|genP - inP| % 12 = 0 ∨ |genP - inP| % 12 = 7) ∧
        ((prev.input < inP ∧ prev.gen < genP) ∨ (inP < prev.input ∧ genP < prev.gen))) ∧
    (∀ v ∈ evaluate H inP genP t inPhrase, v.kind = .HiddenFifthOctave →
        v.severity = 1.0 ∧ v.weight = 0.6) := by
  constructor
  · rw [hidden_mem_evaluate]
    apply exists_congr
    intro prev
    apply and_congr_right
    intro _
    rw [hiddenPerfects_exists, Bool.and_eq_true, Bool.and_eq_true, direction_same,
      isPerfect_stdAbs, isPerfect_stdAbs, Bool.not_eq_true', ← Bool.not_eq_true,
      isPerfect_iff, isPerfect_iff]
    constructor
    · rintro ⟨⟨h1, h2⟩, h3⟩
      refine ⟨h1, h2, ?_⟩
      rcases h3 with h3 | h3 | ⟨h3, h4⟩
      · exact Or.inl h3
      · exact Or.inr h3
      · exfalso
        subst h3 h4
        exact h1 h2
    · rintro ⟨h1, h2, h3⟩
      refine ⟨⟨h1, h2⟩, ?_⟩
      rcases h3 with h3 | h3
      · exact Or.inl h3
      · exact Or.inr (Or.inl h3)
  · intro v hv hk
    rw [mem_evaluate] at hv
    rcases hv with hv | hv | hv
    · rw [(dissonanceCheck_kind _ _ _ _ hv).1] at hk; simp at hk
    · rcases historicalChecks_kind _ _ _ _ _ hv with h | h
      · rcases h.1 with h1 | h1 <;> rw [h1] at hk <;> simp at hk
      · exact h.2
    · rw [(finalNoteRule_kind _ _ _ _ _ _ hv).1] at hk; simp at hk

end RuleChecker

namespace RuleChecker

theorem finalNoteRule_exists (H : List ExplanationNotePair) (inP genP : Int) (t : ℚ)
    (inPhrase : Bool) :
    (∃ v ∈ finalNoteRule H inP genP t inPhrase, v.kind = .Other) ↔
      (inPhrase = false ∧ 4 < H.length ∧ isPerfect (genP - inP) = false) := by
  unfold finalNoteRule
  cases inPhrase <;> by_cases h4 : 4 < H.length <;>
    cases hp : isPerfect (genP - inP) <;> simp [h4]

/-- C11: the ExplanationNotePair overload of `evaluate` returns a violation of kind
`Other` exactly when `inPhrase` is false, the history has more than 4 entries and
the candidate interval |genPitch - inputPitch| mod 12 is not perfect (neither 0
nor 7); every such violation has weight 0.5. -/
theorem evaluate_other_iff (H : List ExplanationNotePair) (inP genP : Int) (t : ℚ)
    (inPhrase : Bool) :
    ((∃ v ∈ evaluate H inP genP t inPhrase, v.kind = .Other) ↔
      (inPhrase = false ∧ 4 < H.length ∧
        ¬ (|genP - inP| % 12 = 0 ∨ |genP - inP| % 12 = 7))) ∧
    (∀ v ∈ evaluate H inP genP t inPhrase, v.kind = .Other → v.weight = 0.5) := by
  constructor
  · rw [← isPerfect_iff, Bool.not_eq_true, ← finalNoteRule_exists H inP genP t inPhrase]
    constructor
    · rintro ⟨v, hv, hk⟩
      rw [mem_evaluate] at hv
      rcases hv with hv | hv | hv
      · rw [(dissonanceCheck_kind _ _ _ _ hv).1] at hk; cases hk
      · rcases historicalChecks_kind _ _ _ _ _ hv with h | h
        · rcases h.1 with h1 | h1 <;> rw [h1] at hk <;> cases hk
        · rw [h.1] at hk; cases hk
      · exact ⟨v, hv, hk⟩
    · rintro ⟨v, hv, hk⟩
      exact ⟨v, (mem_evaluate _ _ _ _ _ _).mpr (Or.inr (Or.inr hv)), hk⟩
  · intro v hv hk
    rw [mem_evaluate] at hv
    rcases hv with hv | hv | hv
    · rw [(dissonanceCheck_kind _ _ _ _ hv).1] at hk; cases hk
    · rcases historicalChecks_kind _ _ _ _ _ hv with h | h
      · rcases h.1 with h1 | h1 <;> rw [h1] at hk <;> cases hk
      · rw [h.1] at hk; cases hk
    · exact (finalNoteRule_kind _ _ _ _ _ _ hv).2.2

theorem currentIntervalEntry_consonant (inP genP : Int) (t : ℚ)
    (h : |genP - inP| % 12 ∈ [(0 : Int), 3, 4, 7, 8, 9]) :
    (currentIntervalEntry inP genP t).kind = .Consonance ∧
    (currentIntervalEntry inP genP t).severity = 0 ∧
    (currentIntervalEntry inP genP t).weight = 0 := by
  have hc : (cMod (stdAbs (genP - inP)) 12 == 0 || cMod (stdAbs (genP - inP)) 12 == 3 ||
      cMod (stdAbs (genP - inP)) 12 == 4 || cMod (stdAbs (genP - inP)) 12 == 7 ||
      cMod (stdAbs (genP - inP)) 12 == 8 || cMod (stdAbs (genP - inP)) 12 == 9) = true := by
    simpa [cMod_stdAbs, or_assoc] using h
  simp only [currentIntervalEntry, hc, if_true]
  norm_num

theorem currentIntervalEntry_dissonant (inP genP : Int) (t : ℚ)
    (h : |genP - inP| % 12 ∉ [(0 : Int), 3, 4, 7, 8, 9]) :
    (currentIntervalEntry inP genP t).kind = .DissonanceOnStrongBeat ∧
    (currentIntervalEntry inP genP t).severity = 1 ∧
    (currentIntervalEntry inP genP t).weight = 1 := by
  have hc : (cMod (stdAbs (genP - inP)) 12 == 0 || cMod (stdAbs (genP - inP)) 12 == 3 ||
      cMod (stdAbs (genP - inP)) 12 == 4 || cMod (stdAbs (genP - inP)) 12 == 7 ||
      cMod (stdAbs (genP - inP)) 12 == 8 || cMod (stdAbs (genP - inP)) 12 == 9) = false := by
    rw [← Bool.not_eq_true]
    simpa [cMod_stdAbs, or_assoc] using h
  simp only [currentIntervalEntry, hc]
  norm_num

/-- C12: for every NotePair history (the empty and the one-entry history
included) and every pitch pair, the NotePair overload of `evaluate` returns a
non-empty list whose first entry reports the current interval: a
`DissonanceOnStrongBeat` violation with severity 1.0 and weight 1.0 when
|genPitch - inputPitch| mod 12 is not in {0,3,4,7,8,9}, and otherwise a
`Consonance` entry with severity 0 and weight 0. -/
theorem evaluateNotePairs_first (H : List NotePair) (inP genP : Int) (t : ℚ) :
    ∃ v rest, evaluateNotePairs H inP genP t = v :: rest ∧
      (|genP - inP| % 12 ∉ [(0 : Int), 3, 4, 7, 8, 9] →
        v.kind = .DissonanceOnStrongBeat ∧ v.severity = 1.0 ∧ v.weight = 1.0) ∧
      (|genP - inP| % 12 ∈ [(0 : Int), 3, 4, 7, 8, 9] →
        v.kind = .Consonance ∧ v.severity = 0 ∧ v.weight = 0) := by
  refine ⟨currentIntervalEntry inP genP t, parallelCheckNotePairs H inP genP t, rfl, ?_, ?_⟩
  · intro h
    have := currentIntervalEntry_dissonant inP genP t h
    refine ⟨this.1, ?_, ?_⟩
    · rw [this.2.1]; norm_num
    · rw [this.2.2]; norm_num
  · exact currentIntervalEntry_consonant inP genP t

end RuleChecker

namespace RuleChecker

theorem foldl_severity (l : List Violation) (a : ℚ) :
    l.foldl (fun score x => score - 0.3 * x.severity) a =
      a - 0.3 * (l.map (fun x => x.severity)).sum := by
  induction l generalizing a with
  | nil => simp
  | cons x xs ih =>
    simp only [List.foldl_cons, List.map_cons, List.sum_cons, ih]
    ring

theorem jlimitF_unit (x : ℚ) : jlimitF 0.0 1.0 x = max 0 (min 1 x) := by
  unfold jlimitF
  norm_num
  split_ifs with h1 h2
  · rw [max_eq_left]
    exact le_trans (min_le_right _ _) (le_of_lt h1)
  · rw [min_eq_left (le_of_lt h2), max_eq_right (by norm_num)]
  · rw [min_eq_right (not_lt.mp h2), max_eq_right (not_lt.mp h1)]

theorem evaluateScore_formula (H : List NotePair) (inP genP : Int) (t : ℚ) :
    evaluateScore H inP genP t =
      max 0 (min 1 (1 - 0.3 *
        ((evaluateNotePairs H inP genP t).map (fun x => x.severity)).sum)) := by
  simp only [evaluateScore, foldl_severity, jlimitF_unit]
  norm_num

/-- C13: `evaluateScore` equals 1.0 - 0.3 * S clamped to [0,1], where S is the sum
of the severities of the entries that the NotePair overload of `evaluate` returns
on the same arguments; so the score lies in [0,1], and a call whose total severity
is at least as large never gets a larger score. -/
theorem evaluateScore_clamped (H : List NotePair) (inP genP : Int) (t : ℚ) :
    evaluateScore H inP genP t =
      max 0 (min 1 (1 - 0.3 *
        ((evaluateNotePairs H inP genP t).map (fun x => x.severity)).sum)) ∧
    0 ≤ evaluateScore H inP genP t ∧ evaluateScore H inP genP t ≤ 1 ∧
    ∀ (H2 : List NotePair) (inP2 genP2 : Int) (t2 : ℚ),
      ((evaluateNotePairs H inP genP t).map (fun x => x.severity)).sum ≤
        ((evaluateNotePairs H2 inP2 genP2 t2).map (fun x => x.severity)).sum →
      evaluateScore H2 inP2 genP2 t2 ≤ evaluateScore H inP genP t := by
  refine ⟨evaluateScore_formula H inP genP t, ?_, ?_, ?_⟩
  · rw [evaluateScore_formula]; exact le_max_left _ _
  · rw [evaluateScore_formula]; exact max_le (by norm_num) (min_le_left _ _)
  · intro H2 inP2 genP2 t2 hS
    rw [evaluateScore_formula, evaluateScore_formula]
    apply max_le_max (le_refl _)
    apply min_le_min (le_refl _)
    linarith

theorem cMod_normalise (x : Int) : cMod (cMod x 12 + 12) 12 = x % 12 := by
  unfold cMod
  rcases lt_or_le x 0 with h | h
  · have h1 : Int.tmod x 12 = x + 12 * ((-x) / 12) := by
      have h2 : Int.tdiv x 12 = -((-x) / 12) := by
        rw [← Int.tdiv_eq_ediv (by omega) (by decide), ← Int.neg_tdiv, Int.neg_neg]
      rw [Int.tmod_def, h2]
      omega
    rw [h1, Int.tmod_eq_emod (by omega) (by decide)]
    omega
  · rw [Int.tmod_eq_emod h (by decide), Int.tmod_eq_emod (by omega) (by decide)]
    omega

end RuleChecker

/-- C14: for all integers x and k, `intervalName x` and `intervalName (x + 12 k)` are
the same string, and that string is one of the twelve table names, never
"unknown". -/
theorem intervalName_periodic (x k : Int) :
    intervalName (x + 12 * k) = intervalName x ∧
    intervalName x ∈ ["unison", "minor 2nd", "major 2nd", "minor 3rd", "major 3rd",
      "perfect 4th", "tritone", "perfect 5th", "minor 6th", "major 6th", "minor 7th",
      "major 7th"] ∧
    intervalName x ≠ "unknown" := by
  have hx : intervalName x = intervalName (x % 12) := by
    simp only [intervalName, RuleChecker.cMod_normalise]
    rw [Int.emod_emod_of_dvd x (dvd_refl 12)]
  have hk : intervalName (x + 12 * k) = intervalName (x % 12) := by
    simp only [intervalName, RuleChecker.cMod_normalise]
    rw [Int.emod_emod_of_dvd x (dvd_refl 12), Int.add_mul_emod_self_left]
  have key : ∃ r : Int, 0 ≤ r ∧ r < 12 ∧ intervalName x = intervalName r ∧
      intervalName (x + 12 * k) = intervalName r :=
    ⟨x % 12, by omega, by omega, hx, hk⟩
  obtain ⟨r, h0, h12, hxr, hkr⟩ := key
  rw [hkr, hxr]
  refine ⟨rfl, ?_⟩
  interval_cases r <;> decide

namespace CounterpointEngine

theorem selectStep_cases (fl : ℚ → ℚ) (model : ModelBridge) (history : List NotePair)
    (inputPitch rejectedPitch : Int) (now : ℚ) (best : ℚ × Int) (a : Int × ℚ) :
    (selectStep fl model history inputPitch rejectedPitch now best a = best ∧
      ¬ ((a.1 ≠ rejectedPitch ∧ isTritone inputPitch a.1 = false) ∧
          best.1 < combinedScore fl model history inputPitch now a)) ∨
    (selectStep fl model history inputPitch rejectedPitch now best a =
        (combinedScore fl model history inputPitch now a, a.1) ∧
      (a.1 ≠ rejectedPitch ∧ isTritone inputPitch a.1 = false) ∧
      best.1 < combinedScore fl model history inputPitch now a) := by
  unfold selectStep
  by_cases h1 : a.1 = rejectedPitch
  · left; simp [h1]
  · cases h2 : isTritone inputPitch a.1
    · by_cases h3 : combinedScore fl model history inputPitch now a > best.1
      · right; simp [h1, h3]
      · left; simp [h1, h3]
    · left; simp [h1]

theorem foldl_selectStep_invariant (fl : ℚ → ℚ) (model : ModelBridge)
    (history : List NotePair)
    (inputPitch rejectedPitch : Int) (now : ℚ) (l : List (Int × ℚ)) (best : ℚ × Int)
    (P : Int → Prop) (hbest : P best.2)
    (hstep : ∀ a ∈ l, a.1 ≠ rejectedPitch → isTritone inputPitch a.1 = false → P a.1) :
    P (l.foldl (selectStep fl model history inputPitch rejectedPitch now) best).2 := by
  induction l generalizing best with
  | nil => exact hbest
  | cons a l ih =>
    rw [List.foldl_cons]
    apply ih
    · rcases selectStep_cases fl model history inputPitch rejectedPitch now best a with h | h
      · rw [h.1]; exact hbest
      · rw [h.1]; exact hstep a (List.mem_cons_self _ _) h.2.1.1 h.2.1.2
    · intro b hb
      exact hstep b (List.mem_cons_of_mem _ hb)

/-- C15: for every rounding of the float arithmetic, engine state, scoring model
and input pitch, and every rejected pitch different from the input pitch,
`suggestAlternativeNote` does not return the rejected pitch. -/
theorem suggestAlternativeNote_ne_rejected (fl : ℚ → ℚ) (e : CounterpointEngine)
    (model : ModelBridge) (inputPitch rejectedPitch : Int) (now : ℚ)
    (h : rejectedPitch ≠ inputPitch) :
    suggestAlternativeNote fl e model inputPitch rejectedPitch now ≠ rejectedPitch := by
  unfold suggestAlternativeNote
  apply foldl_selectStep_invariant fl model e.history inputPitch rejectedPitch now _ _
    (fun r => r ≠ rejectedPitch)
  · exact fun h2 => h h2.symm
  · intro a _ h1 _
    exact h1

/-- Witness for C15: the scenario call suggestAlternativeNote(60, 64, now) on the
fresh engine (empty history) with a model that returns nothing. -/
theorem suggestAlternativeNote_ne_rejected_witness :
    (64 : Int) ≠ 60 ∧
    suggestAlternativeNote roundToFloat new (fun _ _ _ _ => []) 60 64 0 ≠ 64 :=
  ⟨by decide,
    suggestAlternativeNote_ne_rejected roundToFloat new (fun _ _ _ _ => []) 60 64 0
      (by decide)⟩

/-- C16: for every rounding of the float arithmetic, every engine state (whatever
the stepwise neighbours of the last generated pitch are), scoring model, input
pitch and rejected pitch, the pitch returned by `suggestAlternativeNote` is not a
tritone from the input. -/
theorem suggestAlternativeNote_not_tritone (fl : ℚ → ℚ) (e : CounterpointEngine)
    (model : ModelBridge) (inputPitch rejectedPitch : Int) (now : ℚ) :
    |suggestAlternativeNote fl e model inputPitch rejectedPitch now - inputPitch| % 12 ≠ 6 := by
  unfold suggestAlternativeNote
  apply foldl_selectStep_invariant fl model e.history inputPitch rejectedPitch now _ _
    (fun r => |r - inputPitch| % 12 ≠ 6)
  · simp
  · intro a _ _ h2 h3
    rw [(isTritone_iff inputPitch a.1).mpr h3] at h2
    cases h2

end CounterpointEngine

namespace CounterpointEngine

theorem foldl_selectStep_best (fl : ℚ → ℚ) (model : ModelBridge) (history : List NotePair)
    (inputPitch rejectedPitch : Int) (now : ℚ) (l : List (Int × ℚ)) (best : ℚ × Int) :
    (l.foldl (selectStep fl model history inputPitch rejectedPitch now) best = best ∧
      ∀ y ∈ l, (y.1 ≠ rejectedPitch ∧ isTritone inputPitch y.1 = false) →
        combinedScore fl model history inputPitch now y ≤ best.1) ∨
    (∃ pre x post, l = pre ++ x :: post ∧
      (x.1 ≠ rejectedPitch ∧ isTritone inputPitch x.1 = false) ∧
      l.foldl (selectStep fl model history inputPitch rejectedPitch now) best =
        (combinedScore fl model history inputPitch now x, x.1) ∧
      best.1 < combinedScore fl model history inputPitch now x ∧
      (∀ y ∈ pre, (y.1 ≠ rejectedPitch ∧ isTritone inputPitch y.1 = false) →
        combinedScore fl model history inputPitch now y <
          combinedScore fl model history inputPitch now x) ∧
      (∀ y ∈ post, (y.1 ≠ rejectedPitch ∧ isTritone inputPitch y.1 = false) →
        combinedScore fl model history inputPitch now y ≤
          combinedScore fl model history inputPitch now x)) := by
  induction l generalizing best with
  | nil => left; exact ⟨rfl, fun y hy => absurd hy (List.not_mem_nil y)⟩
  | cons a l ih =>
    rw [List.foldl_cons]
    rcases selectStep_cases fl model history inputPitch rejectedPitch now best a with h | h
    · rw [h.1]
      rcases ih best with h2 | ⟨pre, x, post, hl, hq, hres, hlt, hpre, hpost⟩
      · left
        refine ⟨h2.1, ?_⟩
        intro y hy hqy
        rcases List.mem_cons.mp hy with rfl | hy
        · exact not_lt.mp (fun hc => h.2 ⟨hqy, hc⟩)
        · exact h2.2 y hy hqy
      · right
        refine ⟨a :: pre, x, post, by rw [hl]; rfl, hq, hres, hlt, ?_, hpost⟩
        intro y hy hqy
        rcases List.mem_cons.mp hy with rfl | hy
        · exact lt_of_le_of_lt (not_lt.mp (fun hc => h.2 ⟨hqy, hc⟩)) hlt
        · exact hpre y hy hqy
    · rw [h.1]
      right
      rcases ih (combinedScore fl model history inputPitch now a, a.1) with
        h2 | ⟨pre, x, post, hl, hq, hres, hlt, hpre, hpost⟩
      · exact ⟨[], a, l, rfl, h.2.1, h2.1, h.2.2,
          fun y hy => absurd hy (List.not_mem_nil y), h2.2⟩
      · refine ⟨a :: pre, x, post, by rw [hl]; rfl, hq, hres, lt_trans h.2.2 hlt, ?_, hpost⟩
        intro y hy hqy
        rcases List.mem_cons.mp hy with rfl | hy
        · exact hlt
        · exact hpre y hy hqy

theorem mem_pushInRange (first second : Int) (weight : ℚ) (a : Int × ℚ)
    (h : a ∈ pushInRange first second weight) : a.2 = weight ∧ 24 ≤ a.1 ∧ a.1 ≤ 96 := by
  unfold pushInRange at h
  rw [List.mem_append] at h
  rcases h with h | h
  · split at h
    · next hr =>
      rw [List.mem_singleton] at h
      subst h
      exact ⟨rfl, hr.1, hr.2⟩
    · simp at h
  · split at h
    · next hr =>
      rw [List.mem_singleton] at h
      subst h
      exact ⟨rfl, hr.1, hr.2⟩
    · simp at h

theorem mem_alternatives (fl : ℚ → ℚ) (history : List NotePair) (inputPitch : Int)
    (a : Int × ℚ) (hnn : ∀ x : ℚ, 0 ≤ x → 0 ≤ fl x)
    (h : a ∈ alternatives fl history inputPitch) :
    0 ≤ a.2 ∧ 24 ≤ a.1 ∧ a.1 ≤ 96 := by
  unfold alternatives at h
  rw [List.mem_append] at h
  rcases h with h | h
  · rw [List.mem_flatMap] at h
    obtain ⟨iw, hiw, ha⟩ := h
    have := mem_pushInRange _ _ _ _ ha
    refine ⟨?_, this.2⟩
    rw [this.1]
    simp only [alternativeIntervals, List.mem_cons, List.mem_singleton, List.not_mem_nil,
      or_false] at hiw
    rcases hiw with rfl | rfl | rfl | rfl | rfl | rfl | rfl <;>
      exact hnn _ (by norm_num)
  · split at h
    · simp at h
    · rw [List.mem_flatMap] at h
      obtain ⟨st, _, ha⟩ := h
      have := mem_pushInRange _ _ _ _ ha
      refine ⟨?_, this.2⟩
      rw [this.1]
      exact hnn _ (by norm_num)

theorem jlimitF_nonneg (lo hi x : ℚ) (hlo : 0 ≤ lo) (hhi : 0 ≤ hi) :
    0 ≤ jlimitF lo hi x := by
  unfold jlimitF
  split_ifs with h1 h2
  · exact hlo
  · exact hhi
  · exact le_trans hlo (not_lt.mp h1)

theorem evaluateScoreF_nonneg (fl : ℚ → ℚ) (H : List NotePair) (inP genP : Int) (t : ℚ)
    (hnn : ∀ x : ℚ, 0 ≤ x → 0 ≤ fl x) :
    0 ≤ RuleChecker.evaluateScoreF fl H inP genP t := by
  unfold RuleChecker.evaluateScoreF
  exact jlimitF_nonneg _ _ _ (hnn _ (by norm_num)) (hnn _ (by norm_num))

theorem evaluateScoreF_exact (H : List NotePair) (inP genP : Int) (t : ℚ) :
    RuleChecker.evaluateScoreF (fun x => x) H inP genP t =
      RuleChecker.evaluateScore H inP genP t := rfl

theorem combinedScore_nonneg (fl : ℚ → ℚ) (model : ModelBridge) (history : List NotePair)
    (inputPitch : Int) (now : ℚ) (a : Int × ℚ) (ha : 0 ≤ a.2)
    (hnn : ∀ x : ℚ, 0 ≤ x → 0 ≤ fl x)
    (hprob : ∀ ctx cands key major, ∀ r ∈ model ctx cands key major,
      0 ≤ r.prob ∧ r.prob ≤ 1) :
    0 ≤ combinedScore fl model history inputPitch now a := by
  unfold combinedScore
  have h1 := evaluateScoreF_nonneg fl history inputPitch a.1 now hnn
  have h2 : (0 : ℚ) ≤ match model [] [a.1] 0 true with
      | [] => fl 0.5
      | r :: _ => r.prob := by
    cases hm : model [] [a.1] 0 true with
    | nil => exact hnn _ (by norm_num)
    | cons r rest =>
      exact (hprob [] [a.1] 0 true r (by rw [hm]; exact List.mem_cons_self _ _)).1
  exact hnn _ (mul_nonneg (hnn _ (mul_nonneg h1 h2)) ha)

end CounterpointEngine

namespace MockModel

theorem scoreLoop_prob (U : Nat → Nat → ℚ) (seed : Nat) (ctx : List ContextNote)
    (cs : List Int) (j : Nat) (r : Rationale) (h : r ∈ scoreLoop U seed ctx cs j) :
    ∃ k, r.prob = U seed k := by
  induction cs generalizing j with
  | nil => simp [scoreLoop] at h
  | cons c cs ih =>
    simp only [scoreLoop] at h
    rcases List.mem_cons.mp h with rfl | h
    · exact ⟨j, rfl⟩
    · exact ih _ h

end MockModel

namespace CounterpointEngine

theorem roundHalfEven_nonneg (x : ℚ) (h : 0 ≤ x) : 0 ≤ roundHalfEven x := by
  have hf : 0 ≤ ⌊x⌋ := Int.floor_nonneg.mpr h
  unfold roundHalfEven
  simp only
  split_ifs <;> omega

theorem roundToFloat_nonneg (x : ℚ) (h : 0 ≤ x) : 0 ≤ roundToFloat x := by
  unfold roundToFloat
  split_ifs with h0 hlt
  · exact le_refl _
  · exact absurd hlt (not_lt.mpr h)
  · simp only
    have hq : (0 : ℚ) < 2 ^ (max (binaryExponent |x|) (-126) - 23) := by positivity
    have hr : (0 : ℚ) ≤
        (roundHalfEven (|x| / 2 ^ (max (binaryExponent |x|) (-126) - 23)) : ℚ) := by
      exact_mod_cast roundHalfEven_nonneg _ (div_nonneg (abs_nonneg x) hq.le)
    have := mul_nonneg hr hq.le
    simpa using this

theorem roundToFloat_literals :
    roundToFloat 1.0 = 1 ∧ roundToFloat 0.9 = 15099494 / 16777216 ∧
    roundToFloat 0.8 = 13421773 / 16777216 ∧ roundToFloat 0.7 = 11744051 / 16777216 ∧
    roundToFloat 0.6 = 10066330 / 16777216 ∧ roundToFloat 0.5 = 1 / 2 ∧
    roundToFloat 0.3 = 10066330 / 33554432 ∧ roundToFloat 0.0 = 0 ∧
    roundToFloat (-1.0) = -1 := by
  decide!

theorem roundToFloat_ties :
    roundToFloat 16777217 = 16777216 ∧ roundToFloat 16777219 = 16777220 ∧
    roundToFloat (1 / 3) = 11184811 / 33554432 ∧
    roundToFloat (1 / 2 ^ 150) = 0 ∧ roundToFloat (3 / 2 ^ 150) = 1 / 2 ^ 148 ∧
    roundToFloat (roundToFloat 0.9) = roundToFloat 0.9 ∧
    roundToFloat (-0.3) = -roundToFloat 0.3 := by
  decide!

/-- C17: let `fl` be the rounding of the float arithmetic; it keeps the sign
(`0 ≤ fl x` for `0 ≤ x`, `fl (-1) < 0`), as the rounding to the nearest float
`roundToFloat` does. Let the probabilities of the scoring model lie in [0,1].
Every alternative lies in [24,96]; the score of an alternative is the float product
ruleScore(history, input, candidate, now) * modelProbability(candidate) *
baseWeight, with modelProbability 0.5 when the model returns an empty list;
`suggestAlternativeNote` returns the input pitch when no alternative qualifies
(not rejected, not a tritone), and otherwise returns a qualifying alternative
whose score is at least that of every qualifying alternative and strictly above
that of every qualifying alternative listed before it (the first one on ties). -/
theorem suggestAlternativeNote_best (fl : ℚ → ℚ) (e : CounterpointEngine)
    (model : ModelBridge) (inputPitch rejectedPitch : Int) (now : ℚ)
    (hnn : ∀ x : ℚ, 0 ≤ x → 0 ≤ fl x) (hneg : fl (-1) < 0)
    (hprob : ∀ ctx cands key major, ∀ r ∈ model ctx cands key major,
      0 ≤ r.prob ∧ r.prob ≤ 1) :
    (∀ a ∈ alternatives fl e.history inputPitch, 24 ≤ a.1 ∧ a.1 ≤ 96) ∧
    (∀ a : Int × ℚ, combinedScore fl model e.history inputPitch now a =
      fl (fl (RuleChecker.evaluateScoreF fl e.history inputPitch a.1 now *
        (((model [] [a.1] 0 true).head?.map (fun r => r.prob)).getD (fl 0.5))) * a.2)) ∧
    ((∀ a ∈ alternatives fl e.history inputPitch,
        ¬ (a.1 ≠ rejectedPitch ∧ isTritone inputPitch a.1 = false)) →
      suggestAlternativeNote fl e model inputPitch rejectedPitch now = inputPitch) ∧
    ((∃ a ∈ alternatives fl e.history inputPitch,
        a.1 ≠ rejectedPitch ∧ isTritone inputPitch a.1 = false) →
      ∃ pre x post, alternatives fl e.history inputPitch = pre ++ x :: post ∧
        (x.1 ≠ rejectedPitch ∧ isTritone inputPitch x.1 = false) ∧
        suggestAlternativeNote fl e model inputPitch rejectedPitch now = x.1 ∧
        (∀ y ∈ pre, (y.1 ≠ rejectedPitch ∧ isTritone inputPitch y.1 = false) →
          combinedScore fl model e.history inputPitch now y <
            combinedScore fl model e.history inputPitch now x) ∧
        (∀ y ∈ post, (y.1 ≠ rejectedPitch ∧ isTritone inputPitch y.1 = false) →
          combinedScore fl model e.history inputPitch now y ≤
            combinedScore fl model e.history inputPitch now x)) := by
  refine ⟨fun a ha => (mem_alternatives fl _ _ a hnn ha).2, ?_, ?_, ?_⟩
  · intro a
    unfold combinedScore
    cases model [] [a.1] 0 true <;> rfl
  · intro hnone
    unfold suggestAlternativeNote
    rcases foldl_selectStep_best fl model e.history inputPitch rejectedPitch now
        (alternatives fl e.history inputPitch) (fl (-1.0), inputPitch) with
      h | ⟨pre, x, post, hl, hq, _⟩
    · rw [h.1]
    · exact absurd hq (hnone x (by rw [hl]; simp))
  · rintro ⟨a, ha, hqa⟩
    unfold suggestAlternativeNote
    rcases foldl_selectStep_best fl model e.history inputPitch rejectedPitch now
        (alternatives fl e.history inputPitch) (fl (-1.0), inputPitch) with
      h | ⟨pre, x, post, hl, hq, hres, _, hpre, hpost⟩
    · exfalso
      have h1 := h.2 a ha hqa
      have h2 := combinedScore_nonneg fl model e.history inputPitch now a
        (mem_alternatives fl _ _ a hnn ha).1 hnn hprob
      have h3 : (fl (-1.0), inputPitch).1 < 0 := by
        have : (-1.0 : ℚ) = -1 := by norm_num
        rw [this]
        exact hneg
      exact absurd (lt_of_le_of_lt (le_trans h2 h1) h3) (lt_irrefl _)
    · exact ⟨pre, x, post, hl, hq, by rw [hres], hpre, hpost⟩

/-- Witness for C17, with the rounding to the nearest float and the mock model of
the repository drawing 0.5 for every candidate, on the fresh engine (empty
history) with input 60 and rejected pitch 64: the scores of 63 and 57 tie at 0.5
and the first one, 63, is returned. With a model that returns nothing the call
returns 63 as well. -/
theorem suggestAlternativeNote_best_witness :
    (∀ x : ℚ, 0 ≤ x → 0 ≤ roundToFloat x) ∧ roundToFloat (-1) < 0 ∧
    (∀ (ctx : List ContextNote) (cands : List Int) (key : Int) (major : Bool),
      ∀ r ∈ MockModel.scoreCandidates (fun _ _ => 1 / 2) ctx cands key major,
        0 ≤ r.prob ∧ r.prob ≤ 1) ∧
    (∃ pre x post, alternatives roundToFloat new.history 60 = pre ++ x :: post ∧
        (x.1 ≠ 64 ∧ isTritone 60 x.1 = false) ∧
        suggestAlternativeNote roundToFloat new
          (MockModel.scoreCandidates (fun _ _ => 1 / 2)) 60 64 0 = x.1 ∧
        (∀ y ∈ pre, (y.1 ≠ 64 ∧ isTritone 60 y.1 = false) →
          combinedScore roundToFloat (MockModel.scoreCandidates (fun _ _ => 1 / 2))
              new.history 60 0 y <
            combinedScore roundToFloat (MockModel.scoreCandidates (fun _ _ => 1 / 2))
              new.history 60 0 x) ∧
        (∀ y ∈ post, (y.1 ≠ 64 ∧ isTritone 60 y.1 = false) →
          combinedScore roundToFloat (MockModel.scoreCandidates (fun _ _ => 1 / 2))
              new.history 60 0 y ≤
            combinedScore roundToFloat (MockModel.scoreCandidates (fun _ _ => 1 / 2))
              new.history 60 0 x)) ∧
    suggestAlternativeNote roundToFloat new
      (MockModel.scoreCandidates (fun _ _ => 1 / 2)) 60 64 0 = 63 ∧
    suggestAlternativeNote roundToFloat new (fun _ _ _ _ => []) 60 64 0 = 63 := by
  have hp : ∀ (ctx : List ContextNote) (cands : List Int) (key : Int) (major : Bool),
      ∀ r ∈ MockModel.scoreCandidates (fun _ _ => 1 / 2) ctx cands key major,
        0 ≤ r.prob ∧ r.prob ≤ 1 := by
    intro ctx cands key major r hr
    obtain ⟨k, hk⟩ := MockModel.scoreLoop_prob _ _ ctx cands 0 r hr
    rw [hk]
    norm_num
  exact ⟨roundToFloat_nonneg, by decide!, hp,
    (suggestAlternativeNote_best roundToFloat new
      (MockModel.scoreCandidates (fun _ _ => 1 / 2)) 60 64 0 roundToFloat_nonneg
      (by decide!) hp).2.2.2 ⟨(63, 1), by decide!, by decide, by decide⟩,
    by decide!, by decide!⟩

/-- The rounding decides the result. The model gives candidate 63 the probability
0.45f and candidate 68 the probability 0.5: the float scores of 63 (weight 1.0f)
and of 68 (weight 0.9f) are equal and 63, listed first, is returned, while the
same products without rounding, with the decimal weight 0.9, put 68 strictly
first. -/
theorem suggestAlternativeNote_float_tie :
    suggestAlternativeNote roundToFloat new
      (fun _ cands _ _ =>
        if cands = [63] then [{ candidatePitch := 63, prob := roundToFloat 0.45 }]
        else if cands = [68] then [{ candidatePitch := 68, prob := roundToFloat 0.5 }]
        else [{ candidatePitch := -1, prob := 0 }]) 60 64 0 = 63 ∧
    suggestAlternativeNote (fun x => x) new
      (fun _ cands _ _ =>
        if cands = [63] then [{ candidatePitch := 63, prob := roundToFloat 0.45 }]
        else if cands = [68] then [{ candidatePitch := 68, prob := roundToFloat 0.5 }]
        else [{ candidatePitch := -1, prob := 0 }]) 60 64 0 = 68 := by
  decide!

/-- The converse case. The model gives candidate 63 the probability 0.04f and
candidate 72 the probability 0.05f: the float score 0.05f * 0.8f of 72 is above
the score 0.04f of 63 and 72 is returned, while the decimal products 0.04 and
0.05 * 0.8 tie and would leave 63. -/
theorem suggestAlternativeNote_float_order :
    suggestAlternativeNote roundToFloat new
      (fun _ cands _ _ =>
        if cands = [63] then [{ candidatePitch := 63, prob := roundToFloat 0.04 }]
        else if cands = [72] then [{ candidatePitch := 72, prob := roundToFloat 0.05 }]
        else [{ candidatePitch := -1, prob := 0 }]) 60 64 0 = 72 ∧
    suggestAlternativeNote (fun x => x) new
      (fun _ cands _ _ =>
        if cands = [63] then [{ candidatePitch := 63, prob := 0.04 }]
        else if cands = [72] then [{ candidatePitch := 72, prob := 0.05 }]
        else [{ candidatePitch := -1, prob := 0 }]) 60 64 0 = 63 := by
  decide!

end CounterpointEngine

namespace MockModel

theorem influenceLoop_eq (ctx : List ContextNote) (i added : Nat) (hi : i ≤ ctx.length) :
    influenceLoop ctx i added =
      (((ctx.take i).reverse.take (5 - added)).enumFrom added).map
        (fun p => (⟨p.2.pitch, p.2.startSec, p.2.endSec, 1 - 0.18 * (p.1 : ℚ)⟩ : Influence)) := by
  induction i generalizing added with
  | zero => simp [influenceLoop]
  | succ i ih =>
    have hlt : i < ctx.length := hi
    simp only [influenceLoop]
    by_cases ha : added < 5
    · have hget : ctx[i]? = some ctx[i] := List.getElem?_eq_getElem hlt
      have h5 : 5 - added = (5 - (added + 1)) + 1 := by omega
      have hw : (if (1.0 : ℚ) - (added : ℚ) * 0.18 < 0 then 0 else (1.0 : ℚ) - (added : ℚ) * 0.18)
          = 1 - 0.18 * (added : ℚ) := by
        have h4 : (added : ℚ) ≤ 4 := by
          have : added ≤ 4 := by omega
          exact_mod_cast this
        rw [if_neg (by norm_num; linarith)]
        ring
      rw [if_pos ha, hget, List.take_succ, hget]
      simp only [Option.toList, List.reverse_append, List.reverse_cons, List.reverse_nil,
        List.nil_append, List.singleton_append]
      rw [h5, List.take_succ_cons, List.enumFrom_cons, List.map_cons, ih (added + 1) (by omega),
        hw]
    · rw [if_neg ha]
      have : 5 - added = 0 := by omega
      simp [this]

theorem influenceLoop_weight (ctx : List ContextNote) (i added : Nat) :
    ∀ inf ∈ influenceLoop ctx i added, 0 ≤ inf.weight ∧ inf.weight ≤ 1 := by
  induction i generalizing added with
  | zero => intro inf h; simp [influenceLoop] at h
  | succ i ih =>
    intro inf h
    simp only [influenceLoop] at h
    split at h
    · split at h
      · rcases List.mem_cons.mp h with rfl | h
        · have hn : (0 : ℚ) ≤ (added : ℚ) := Nat.cast_nonneg added
          constructor
          · show (0 : ℚ) ≤ if (1.0 : ℚ) - (added : ℚ) * 0.18 < 0 then 0
              else (1.0 : ℚ) - (added : ℚ) * 0.18
            split_ifs with hw
            · exact le_refl _
            · exact not_lt.mp hw
          · show (if (1.0 : ℚ) - (added : ℚ) * 0.18 < 0 then 0
              else (1.0 : ℚ) - (added : ℚ) * 0.18) ≤ 1
            split_ifs with hw
            · norm_num
            · norm_num
        · exact ih _ inf h
      · exact ih _ inf h
    · simp at h

theorem scoreLoop_pitches (U : Nat → Nat → ℚ) (seed : Nat) (ctx : List ContextNote)
    (cs : List Int) (j : Nat) :
    (scoreLoop U seed ctx cs j).map (fun r => r.candidatePitch) = cs := by
  induction cs generalizing j with
  | nil => rfl
  | cons c cs ih => simp [scoreLoop, ih]

theorem scoreLoop_influences (U : Nat → Nat → ℚ) (seed : Nat) (ctx : List ContextNote)
    (cs : List Int) (j : Nat) :
    ∀ r ∈ scoreLoop U seed ctx cs j, r.influences = influenceLoop ctx ctx.length 0 := by
  induction cs generalizing j with
  | nil => intro r h; simp [scoreLoop] at h
  | cons c cs ih =>
    intro r h
    simp only [scoreLoop] at h
    rcases List.mem_cons.mp h with rfl | h
    · rfl
    · exact ih _ r h

/-- C20: for every context and every list of candidate pitches the mock model
returns one Rationale per candidate, in the same order, with `candidatePitch`
equal to that candidate; the influences of each Rationale are the last min(5, n)
notes of the context (same pitch, start and end), most recent first, the i-th
with weight 1 - 0.18 i; all weights lie in [0,1]; with an empty context the
influence list is empty. -/
theorem scoreCandidates_contract (U : Nat → Nat → ℚ) (ctx : List ContextNote)
    (candidates : List Int) (key : Int) (major : Bool) :
    (scoreCandidates U ctx candidates key major).map (fun r => r.candidatePitch) = candidates ∧
    (scoreCandidates U ctx candidates key major).length = candidates.length ∧
    (∀ r ∈ scoreCandidates U ctx candidates key major,
      r.influences = ((ctx.reverse.take 5).enum).map
        (fun p => (⟨p.2.pitch, p.2.startSec, p.2.endSec, 1 - 0.18 * (p.1 : ℚ)⟩ : Influence)) ∧
      r.influences.length = min 5 ctx.length ∧
      (∀ inf ∈ r.influences, 0 ≤ inf.weight ∧ inf.weight ≤ 1) ∧
      (ctx = [] → r.influences = [])) := by
  have hp := scoreLoop_pitches U ((12345 + ctx.length + candidates.length) % 2 ^ 32) ctx
    candidates 0
  refine ⟨hp, ?_, ?_⟩
  · have := congrArg List.length hp
    simpa using this
  · intro r hr
    have hi := scoreLoop_influences U _ ctx candidates 0 r hr
    have he := influenceLoop_eq ctx ctx.length 0 (le_refl _)
    rw [List.take_length] at he
    refine ⟨by rw [hi, he]; rfl, ?_, ?_, ?_⟩
    · rw [hi, he]
      simp
    · rw [hi]
      exact influenceLoop_weight ctx ctx.length 0
    · intro hc
      rw [hi, he, hc]
      rfl

end MockModel

namespace ExplanationEngine

theorem occlusionStep_fields (model : ModelBridge) (ctx : List ContextNote) (keyRoot : Int)
    (isMajor : Bool) (r : Rationale) (k : Nat) :
    (occlusionStep model ctx keyRoot isMajor r k).candidatePitch = r.candidatePitch ∧
    (occlusionStep model ctx keyRoot isMajor r k).prob = r.prob := by
  simp only [occlusionStep]
  split
  · exact ⟨rfl, rfl⟩
  · split <;> exact ⟨rfl, rfl⟩

theorem foldl_occlusionStep_fields (model : ModelBridge) (ctx : List ContextNote)
    (keyRoot : Int) (isMajor : Bool) (ks : List Nat) (r : Rationale) :
    (ks.foldl (occlusionStep model ctx keyRoot isMajor) r).candidatePitch = r.candidatePitch ∧
    (ks.foldl (occlusionStep model ctx keyRoot isMajor) r).prob = r.prob := by
  induction ks generalizing r with
  | nil => exact ⟨rfl, rfl⟩
  | cons k ks ih =>
    rw [List.foldl_cons]
    have h1 := ih (occlusionStep model ctx keyRoot isMajor r k)
    have h2 := occlusionStep_fields model ctx keyRoot isMajor r k
    exact ⟨h1.1.trans h2.1, h1.2.trans h2.2⟩

theorem occlusionExplain_fields (model : ModelBridge) (ctx : List ContextNote)
    (base : Rationale) (keyRoot : Int) (isMajor : Bool) :
    (occlusionExplain model ctx base keyRoot isMajor).candidatePitch = base.candidatePitch ∧
    (occlusionExplain model ctx base keyRoot isMajor).prob = base.prob := by
  unfold occlusionExplain
  split
  · exact ⟨rfl, rfl⟩
  · exact foldl_occlusionStep_fields model ctx keyRoot isMajor _ base

theorem explainChoice_fields (model : ModelBridge) (hist : List ExplanationNotePair)
    (ctx : List ContextNote) (inPitch genPitch keyRoot : Int) (isMajor : Bool)
    (nowSec : ℚ) (inPhrase : Bool) :
    (explainChoice model hist ctx inPitch genPitch keyRoot isMajor nowSec
        inPhrase).candidatePitch =
      (chooseRationale (model ctx (candidateSet inPitch) keyRoot isMajor)
        genPitch).candidatePitch ∧
    (explainChoice model hist ctx inPitch genPitch keyRoot isMajor nowSec inPhrase).prob =
      (chooseRationale (model ctx (candidateSet inPitch) keyRoot isMajor) genPitch).prob := by
  unfold explainChoice
  exact occlusionExplain_fields model ctx _ keyRoot isMajor

/-- C18 (counterexample): with a scoring model that returns an empty list, the
Rationale that `explainChoice` returns for input 60 and generated pitch 64 does
not have probability 0.5. -/
theorem explainChoice_empty_model_counterexample :
    (fun _ _ _ _ => [] : ModelBridge) [] (candidateSet 60) 0 true = [] ∧
    (explainChoice (fun _ _ _ _ => []) [] [] 60 64 0 true 0 true).prob ≠ 0.5 := by
  refine ⟨rfl, ?_⟩
  rw [(explainChoice_fields (fun _ _ _ _ => []) [] [] 60 64 0 true 0 true).2]
  show (0.0 : ℚ) ≠ 0.5
  norm_num

theorem occlusionStep_no_influences (model : ModelBridge) (ctx : List ContextNote)
    (keyRoot : Int) (isMajor : Bool) (r : Rationale) (k : Nat) (h : r.influences = []) :
    occlusionStep model ctx keyRoot isMajor r k = r := by
  simp only [occlusionStep]
  split
  · rfl
  · split
    · rfl
    · rw [h]
      cases r
      simp only at h
      subst h
      rfl

theorem foldl_occlusionStep_no_influences (model : ModelBridge) (ctx : List ContextNote)
    (keyRoot : Int) (isMajor : Bool) (ks : List Nat) (r : Rationale)
    (h : r.influences = []) :
    ks.foldl (occlusionStep model ctx keyRoot isMajor) r = r := by
  induction ks with
  | nil => rfl
  | cons k ks ih =>
    rw [List.foldl_cons, occlusionStep_no_influences model ctx keyRoot isMajor r k h]
    exact ih

theorem occlusionExplain_no_influences (model : ModelBridge) (ctx : List ContextNote)
    (base : Rationale) (keyRoot : Int) (isMajor : Bool) (h : base.influences = []) :
    occlusionExplain model ctx base keyRoot isMajor = base := by
  unfold occlusionExplain
  split
  · rfl
  · exact foldl_occlusionStep_no_influences model ctx keyRoot isMajor _ base h

/-- C18 (amended): for every history, context and pitch pair, if the scoring model
returns an empty list for the candidate query, `explainChoice` still returns a
Rationale (the function is total). Its probability is 0.0 and its candidate
pitch is -1, the default member values of `Rationale` (no 0.5 is substituted);
its influence list is empty, its summary and detail are the fixed texts, and its
triggered rules are the violations that the rule checker reports for the pitch
pair. -/
theorem explainChoice_empty_model (model : ModelBridge) (hist : List ExplanationNotePair)
    (ctx : List ContextNote) (inPitch genPitch keyRoot : Int) (isMajor : Bool)
    (nowSec : ℚ) (inPhrase : Bool)
    (hm : model ctx (candidateSet inPitch) keyRoot isMajor = []) :
    (explainChoice model hist ctx inPitch genPitch keyRoot isMajor nowSec inPhrase).prob = 0 ∧
    (explainChoice model hist ctx inPitch genPitch keyRoot isMajor nowSec
        inPhrase).candidatePitch = -1 ∧
    (explainChoice model hist ctx inPitch genPitch keyRoot isMajor nowSec
        inPhrase).influences = [] ∧
    (explainChoice model hist ctx inPitch genPitch keyRoot isMajor nowSec
        inPhrase).triggeredRules =
      RuleChecker.evaluate hist inPitch genPitch nowSec inPhrase ∧
    (explainChoice model hist ctx inPitch genPitch keyRoot isMajor nowSec
        inPhrase).summary =
      "Model favors consonant contrary motion; " ++
        ("context length=" ++ toString ctx.length) ∧
    (explainChoice model hist ctx inPitch genPitch keyRoot isMajor nowSec
        inPhrase).detail =
      "Top influences are most recent notes; diatonic bias applied." := by
  have h : explainChoice model hist ctx inPitch genPitch keyRoot isMajor nowSec inPhrase =
      { candidatePitch := -1, prob := 0.0,
        summary := "Model favors consonant contrary motion; " ++
          ("context length=" ++ toString ctx.length),
        detail := "Top influences are most recent notes; diatonic bias applied.",
        influences := [],
        triggeredRules := RuleChecker.evaluate hist inPitch genPitch nowSec inPhrase } := by
    unfold explainChoice
    simp only [hm]
    rw [occlusionExplain_no_influences _ _ _ _ _ rfl]
    rfl
  rw [h]
  refine ⟨?_, rfl, rfl, rfl, rfl, rfl⟩
  show (0.0 : ℚ) = 0
  norm_num

/-- Witness for C18 (amended): a model that answers the candidate query of input 60
with nothing and every other query with one entry, a context of two notes (so
that the occlusion loop runs), generated pitch 66 (a tritone, which the rule
checker reports), empty history. -/
theorem explainChoice_empty_model_witness :
    ((fun _ cands _ _ => if cands = candidateSet 60 then [] else [{ prob := 0.25 }]) :
        ModelBridge) [⟨60, 0, 1⟩, ⟨62, 1, 2⟩] (candidateSet 60) 0 true = [] ∧
    (explainChoice (fun _ cands _ _ => if cands = candidateSet 60 then [] else [{ prob := 0.25 }])
      [] [⟨60, 0, 1⟩, ⟨62, 1, 2⟩] 60 66 0 true 0 true).prob = 0 ∧
    (explainChoice (fun _ cands _ _ => if cands = candidateSet 60 then [] else [{ prob := 0.25 }])
      [] [⟨60, 0, 1⟩, ⟨62, 1, 2⟩] 60 66 0 true 0 true).candidatePitch = -1 ∧
    (explainChoice (fun _ cands _ _ => if cands = candidateSet 60 then [] else [{ prob := 0.25 }])
      [] [⟨60, 0, 1⟩, ⟨62, 1, 2⟩] 60 66 0 true 0 true).influences = [] ∧
    (explainChoice (fun _ cands _ _ => if cands = candidateSet 60 then [] else [{ prob := 0.25 }])
      [] [⟨60, 0, 1⟩, ⟨62, 1, 2⟩] 60 66 0 true 0 true).triggeredRules =
      RuleChecker.evaluate [] 60 66 0 true ∧
    (explainChoice (fun _ cands _ _ => if cands = candidateSet 60 then [] else [{ prob := 0.25 }])
      [] [⟨60, 0, 1⟩, ⟨62, 1, 2⟩] 60 66 0 true 0 true).summary =
      "Model favors consonant contrary motion; " ++
        ("context length=" ++ toString ([⟨60, 0, 1⟩, ⟨62, 1, 2⟩] : List ContextNote).length) ∧
    (explainChoice (fun _ cands _ _ => if cands = candidateSet 60 then [] else [{ prob := 0.25 }])
      [] [⟨60, 0, 1⟩, ⟨62, 1, 2⟩] 60 66 0 true 0 true).detail =
      "Top influences are most recent notes; diatonic bias applied." :=
  ⟨rfl, explainChoice_empty_model
    (fun _ cands _ _ => if cands = candidateSet 60 then [] else [{ prob := 0.25 }])
    [] [⟨60, 0, 1⟩, ⟨62, 1, 2⟩] 60 66 0 true 0 true rfl⟩

theorem chooseRationale_found (r0 : Rationale) (rest : List Rationale) (genPitch : Int)
    (h0 : 0 ≤ genPitch) (r : Rationale)
    (h : (r0 :: rest).find? (fun r => r.candidatePitch == genPitch) = some r) :
    chooseRationale (r0 :: rest) genPitch = r := by
  have hp : r.candidatePitch = genPitch := by
    have := List.find?_some h
    simpa using this
  unfold chooseRationale
  rw [h]
  simp only
  rw [if_neg (by omega)]

theorem chooseRationale_missing (r0 : Rationale) (rest : List Rationale) (genPitch : Int)
    (h : (r0 :: rest).find? (fun r => r.candidatePitch == genPitch) = none) :
    chooseRationale (r0 :: rest) genPitch = r0 := by
  unfold chooseRationale
  rw [h]
  simp only
  rw [if_pos (by decide)]

/-- C19: for every generated pitch that is at least 0 (so every MIDI pitch) and
every scoring model whose answer is not empty, `explainChoice` queries the model
with the candidates inputPitch + {-9,-8,-5,-4,-3,+3,+4,+5,+8,+9}; the returned
Rationale has the candidate pitch and probability of the first returned entry
whose candidate pitch is `genPitch` when there is one, and those of the first
returned entry otherwise. -/
theorem explainChoice_selects (model : ModelBridge) (hist : List ExplanationNotePair)
    (ctx : List ContextNote) (inPitch genPitch keyRoot : Int) (isMajor : Bool)
    (nowSec : ℚ) (inPhrase : Bool) (h0 : 0 ≤ genPitch)
    (hne : model ctx [inPitch - 9, inPitch - 8, inPitch - 5, inPitch - 4, inPitch - 3,
      inPitch + 3, inPitch + 4, inPitch + 5, inPitch + 8, inPitch + 9] keyRoot isMajor ≠ []) :
    ∃ r0 rest,
      model ctx [inPitch - 9, inPitch - 8, inPitch - 5, inPitch - 4, inPitch - 3,
        inPitch + 3, inPitch + 4, inPitch + 5, inPitch + 8, inPitch + 9] keyRoot isMajor
        = r0 :: rest ∧
      (∀ r, (r0 :: rest).find? (fun r => r.candidatePitch == genPitch) = some r →
        (explainChoice model hist ctx inPitch genPitch keyRoot isMajor nowSec
            inPhrase).candidatePitch = r.candidatePitch ∧
        (explainChoice model hist ctx inPitch genPitch keyRoot isMajor nowSec
            inPhrase).prob = r.prob) ∧
      ((r0 :: rest).find? (fun r => r.candidatePitch == genPitch) = none →
        (explainChoice model hist ctx inPitch genPitch keyRoot isMajor nowSec
            inPhrase).candidatePitch = r0.candidatePitch ∧
        (explainChoice model hist ctx inPitch genPitch keyRoot isMajor nowSec
            inPhrase).prob = r0.prob) := by
  have hf := explainChoice_fields model hist ctx inPitch genPitch keyRoot isMajor nowSec
    inPhrase
  simp only [candidateSet] at hf
  cases hm : model ctx [inPitch - 9, inPitch - 8, inPitch - 5, inPitch - 4, inPitch - 3,
      inPitch + 3, inPitch + 4, inPitch + 5, inPitch + 8, inPitch + 9] keyRoot isMajor with
  | nil => exact absurd hm hne
  | cons r0 rest =>
    rw [hm] at hf
    refine ⟨r0, rest, rfl, ?_, ?_⟩
    · intro r hr
      rw [hf.1, hf.2, chooseRationale_found r0 rest genPitch h0 r hr]
      exact ⟨rfl, rfl⟩
    · intro hr
      rw [hf.1, hf.2, chooseRationale_missing r0 rest genPitch hr]
      exact ⟨rfl, rfl⟩

/-- Witness for C19: the mock model (every draw 0.5), empty history and context,
input 60 and generated pitch 67, a fifth that is not in the candidate set; the
first entry of the mock model, 60 - 9 = 51, is reported. -/
theorem explainChoice_selects_witness :
    (0 : Int) ≤ 67 ∧
    MockModel.scoreCandidates (fun _ _ => 0.5) [] [60 - 9, 60 - 8, 60 - 5, 60 - 4, 60 - 3,
      60 + 3, 60 + 4, 60 + 5, 60 + 8, 60 + 9] 0 true ≠ [] ∧
    (explainChoice (MockModel.scoreCandidates (fun _ _ => 0.5)) [] [] 60 67 0 true 0
        true).candidatePitch = 51 := by
  refine ⟨by decide, by simp [MockModel.scoreCandidates, MockModel.scoreLoop], ?_⟩
  obtain ⟨r0, rest, hm, _, hnone⟩ :=
    explainChoice_selects (MockModel.scoreCandidates (fun _ _ => 0.5)) [] [] 60 67 0 true 0
      true (by decide) (by simp [MockModel.scoreCandidates, MockModel.scoreLoop])
  have hr0 : r0 :: rest =
      MockModel.scoreLoop (fun _ _ => 0.5) ((12345 + 0 + 10) % 2 ^ 32) []
        [51, 52, 55, 56, 57, 63, 64, 65, 68, 69] 0 := by
    rw [← hm]
    rfl
  simp only [MockModel.scoreLoop] at hr0
  injection hr0 with h1 h2
  subst h1 h2
  exact (hnone rfl).1

end ExplanationEngine

namespace CounterpointEngine

theorem recordHistory_eq (h : List NotePair) (r : NotePair) :
    recordHistory h r = h.drop (if 50 ≤ h.length then 10 else 0) ++ [r] := by
  unfold recordHistory
  simp only [List.length_append, List.length_singleton]
  by_cases h50 : 50 ≤ h.length
  · rw [if_pos (by omega), if_pos h50]
    exact List.drop_append_of_le_length (by omega)
  · rw [if_neg (by omega), if_neg h50]
    rfl

theorem generateCounterpoint_history (e : CounterpointEngine) (userMsg : MidiMessage)
    (now : ℚ) (rng : Random) :
    (generateCounterpoint e userMsg now rng).2.1.history =
      e.history.drop
        (if 50 ≤ e.history.length then 11 else if 31 ≤ e.history.length then 1 else 0) ++
      [callRecord e userMsg now rng, callRecord e userMsg now rng] := by
  have hgc : (generateCounterpoint e userMsg now rng).2.1.history =
      if (recordHistory e.history (callRecord e userMsg now rng) ++
            [callRecord e userMsg now rng]).length > 32
      then (recordHistory e.history (callRecord e userMsg now rng) ++
            [callRecord e userMsg now rng]).tail
      else recordHistory e.history (callRecord e userMsg now rng) ++
            [callRecord e userMsg now rng] := rfl
  rw [hgc, recordHistory_eq]
  generalize callRecord e userMsg now rng = r
  generalize e.history = h
  simp only [List.length_append, List.length_drop, List.length_singleton, List.append_assoc,
    List.singleton_append, List.length_cons, List.length_nil]
  by_cases h50 : 50 ≤ h.length
  · have hne : h.drop 10 ≠ [] := by
      intro hnil
      have := congrArg List.length hnil
      simp at this
      omega
    rw [if_pos h50, if_pos h50, if_pos (by omega), List.tail_append_of_ne_nil hne,
      List.tail_drop]
  · rw [if_neg h50, if_neg h50]
    by_cases h31 : 31 ≤ h.length
    · have hne : h ≠ [] := by
        intro hnil
        rw [hnil] at h31
        simp at h31
      rw [if_pos (by simp only [Nat.sub_zero]; omega), if_pos h31, List.drop_zero,
        List.tail_append_of_ne_nil hne, List.drop_one]
    · rw [if_neg (by simp only [Nat.sub_zero]; omega), if_neg h31]

theorem generateCounterpoint_length (e : CounterpointEngine) (userMsg : MidiMessage)
    (now : ℚ) (rng : Random) :
    (generateCounterpoint e userMsg now rng).2.1.history.length =
      lengthAfterCall e.history.length := by
  rw [generateCounterpoint_history]
  unfold lengthAfterCall
  simp only [List.length_append, List.length_drop, List.length_cons, List.length_nil]
  split_ifs <;> omega

theorem generateCounterpoint_suffix (e : CounterpointEngine) (userMsg : MidiMessage)
    (now : ℚ) (rng : Random) :
    (generateCounterpoint e userMsg now rng).2.1.history <:+
      e.history ++ [callRecord e userMsg now rng, callRecord e userMsg now rng] := by
  rw [generateCounterpoint_history]
  obtain ⟨t, ht⟩ := List.drop_suffix
    (if 50 ≤ e.history.length then 11 else if 31 ≤ e.history.length then 1 else 0) e.history
  exact ⟨t, by rw [← List.append_assoc, ht]⟩

/-- C21: from any prior engine state, after `generateCounterpoint` on a message
with note number p returns the note-on of the generated pitch g at clock value
`now`, the last two entries of the history are both the record (p, g, now),
whichever of the two eviction rules applied. -/
theorem generateCounterpoint_last_two (e : CounterpointEngine) (userMsg : MidiMessage)
    (now : ℚ) (rng : Random) :
    ∃ (g : Int) (pre : List NotePair),
      (generateCounterpoint e userMsg now rng).1 =
        MidiMessage.noteOn 1 g userMsg.getVelocity ∧
      (generateCounterpoint e userMsg now rng).2.1.history =
        pre ++ [⟨userMsg.getNoteNumber, g, now⟩, ⟨userMsg.getNoteNumber, g, now⟩] ∧
      (generateCounterpoint e userMsg now rng).2.1.history.getLast? =
        some ⟨userMsg.getNoteNumber, g, now⟩ := by
  refine ⟨(generateValidCounterpoint e userMsg.getNoteNumber now rng).1, _, rfl,
    generateCounterpoint_history e userMsg now rng, ?_⟩
  rw [generateCounterpoint_history]
  simp [callRecord]

end CounterpointEngine

namespace CounterpointEngine

theorem rangeAdjust_diff (above : Bool) (p i : Int) :
    rangeAdjust above p i - p = i ∨ rangeAdjust above p i - p = -i ∨
    rangeAdjust above p i - p = i - 12 ∨ rangeAdjust above p i - p = 12 - i := by
  unfold rangeAdjust
  cases above
  · simp only [Bool.false_eq_true, if_false, false_and, true_and]
    split_ifs <;> omega
  · simp only [if_true, true_and, Bool.true_eq_false, false_and, if_false]
    split_ifs <;> omega

theorem rangeAdjust_not_tritone (above : Bool) (p i : Int)
    (hi : i ∈ [(3 : Int), 4, 7, 8, 9, 12]) : isTritone p (rangeAdjust above p i) = false := by
  rw [isTritone_eq_false_iff]
  simp only [List.mem_cons, List.mem_singleton, List.not_mem_nil, or_false] at hi
  have hd := rangeAdjust_diff above p i
  omega

theorem generateValidCounterpoint_first (e : CounterpointEngine) (p : Int) (now : ℚ)
    (rng : Random) (h : e.lastGeneratedNote = -1 ∨ e.lastInputNote = -1) :
    (generateValidCounterpoint e p now rng).1 =
      clampAndFallback e.generateAbove p (enforceSeparation e.generateAbove p
        (rangeAdjust e.generateAbove p
          (chooseWeightedInterval (initialMotion e p rng).2).1)) ∧
    (generateValidCounterpoint e p now rng).2.2 =
      (chooseWeightedInterval (initialMotion e p rng).2).2 := by
  have hl := attemptLoop_accept e p 7
    { genNote := p, tries := 0, motion := (initialMotion e p rng).1,
      rng := (initialMotion e p rng).2 } (by simp)
    (rangeAdjust_not_tritone _ _ _ (chooseWeightedInterval_mem _))
    (parallelPerfect_of_unset _ _ _ h)
  simp only [generateValidCounterpoint, hl]
  exact ⟨trivial, trivial⟩

theorem trace_invariant (e : CounterpointEngine) (log : List NotePair) (h : Trace e log) :
    e.history.length ≤ 50 ∧ e.history <:+ log ∧
    e.lastGeneratedNote = -1 ∧ e.lastInputNote = -1 := by
  induction h with
  | fresh => exact ⟨by simp [new], List.suffix_refl _, rfl, rfl⟩
  | generate e log userMsg now rng _ ih =>
    refine ⟨?_, ?_, ih.2.2.1, ih.2.2.2⟩
    · rw [generateCounterpoint_length]
      unfold lengthAfterCall
      have := ih.1
      split_ifs <;> omega
    · obtain ⟨t, ht⟩ := ih.2.1
      obtain ⟨u, hu⟩ := generateCounterpoint_suffix e userMsg now rng
      exact ⟨t ++ u, by rw [List.append_assoc, hu, ← List.append_assoc, ht]⟩
  | noteOff e log inputPitch _ ih =>
    have hf : (noteOffForInput e inputPitch).2.history = e.history ∧
        (noteOffForInput e inputPitch).2.lastGeneratedNote = e.lastGeneratedNote ∧
        (noteOffForInput e inputPitch).2.lastInputNote = e.lastInputNote := by
      unfold noteOffForInput
      split <;> exact ⟨rfl, rfl, rfl⟩
    rw [hf.1, hf.2.1, hf.2.2]
    exact ih
  | setAbove e log above _ ih => exact ih

theorem runCalls_length (e : CounterpointEngine) (rng : Random)
    (calls : List (MidiMessage × ℚ)) :
    (runCalls e rng calls).1.history.length =
      lengthAfterCall^[calls.length] e.history.length := by
  induction calls generalizing e rng with
  | nil => rfl
  | cons c rest ih =>
    simp only [runCalls, List.length_cons, Function.iterate_succ, Function.comp]
    rw [ih, generateCounterpoint_length]

/-- C22 (failing input): whatever the 17 messages, clock values and random draws
are, after 17 consecutive `generateCounterpoint` calls on a fresh engine the
history holds 33 entries, one more than the caller-level cap of 32: each call
appends two records and the caller evicts at most one. -/
theorem history_exceeds_caller_cap (f : Nat → MidiMessage × ℚ) (rng : Random) :
    (runCalls new rng ((List.range 17).map f)).1.history.length = 33 := by
  rw [runCalls_length]
  simp only [List.length_map, List.length_range]
  decide

theorem runLog_length (e : CounterpointEngine) (rng : Random)
    (calls : List (MidiMessage × ℚ)) :
    (runLog e rng calls).length = 2 * calls.length := by
  induction calls generalizing e rng with
  | nil => rfl
  | cons c rest ih =>
    simp only [runLog, List.length_append, List.length_cons, List.length_nil, ih]
    omega

theorem runCalls_trace (e : CounterpointEngine) (log : List NotePair) (h : Trace e log)
    (rng : Random) (calls : List (MidiMessage × ℚ)) :
    Trace (runCalls e rng calls).1 (log ++ runLog e rng calls) := by
  induction calls generalizing e log rng with
  | nil => simpa [runCalls, runLog] using h
  | cons c rest ih =>
    have h1 := ih _ _ (Trace.generate e log c.1 c.2 rng h) (generateCounterpoint e c.1 c.2 rng).2.2
    simp only [runCalls, runLog]
    rw [List.append_assoc] at h1
    exact h1

/-- C28: in every state reached from a fresh engine the history holds at most 50
entries and is a contiguous suffix of the sequence of all records ever appended
(evictions remove entries from the front only); a further `generateCounterpoint`
call on a history of length s leaves s + 2 entries when s ≤ 30, s + 1 when
31 ≤ s ≤ 49, and 41 when s = 50. -/
theorem history_invariant (e : CounterpointEngine) (log : List NotePair)
    (h : Trace e log) :
    e.history.length ≤ 50 ∧ e.history <:+ log ∧
    ∀ (userMsg : MidiMessage) (now : ℚ) (rng : Random),
      (generateCounterpoint e userMsg now rng).2.1.history.length =
        (if e.history.length ≤ 30 then e.history.length + 2
         else if e.history.length ≤ 49 then e.history.length + 1 else 41) ∧
      (generateCounterpoint e userMsg now rng).2.1.history <:+
        log ++ [callRecord e userMsg now rng, callRecord e userMsg now rng] := by
  have hi := trace_invariant e log h
  refine ⟨hi.1, hi.2.1, ?_⟩
  intro userMsg now rng
  constructor
  · rw [generateCounterpoint_length]
    unfold lengthAfterCall
    have := hi.1
    split_ifs <;> omega
  · exact (trace_invariant _ _ (Trace.generate e log userMsg now rng h)).2.1

/-- Witness for C28: the state reached from the fresh engine by 35
`generateCounterpoint` calls (note-ons 60, 61, ..., 94 at the clock values
0, 1, ..., 34). Both evictions have run by then: 70 records were appended and the
history holds the last 41 of them. -/
theorem history_invariant_witness :
    ∃ (e : CounterpointEngine) (log : List NotePair),
      e = (runCalls new ⟨fun _ => 0, fun _ => true, 0⟩
        ((List.range 35).map
          (fun (i : Nat) => (MidiMessage.noteOn 1 (60 + (i : Int)) 100, (i : ℚ))))).1 ∧
      log = runLog new ⟨fun _ => 0, fun _ => true, 0⟩
        ((List.range 35).map
          (fun (i : Nat) => (MidiMessage.noteOn 1 (60 + (i : Int)) 100, (i : ℚ)))) ∧
      Trace e log ∧ log.length = 70 ∧ e.history.length = 41 ∧
      (e.history.length ≤ 50 ∧ e.history <:+ log ∧
        ∀ (userMsg : MidiMessage) (now : ℚ) (rng : Random),
          (generateCounterpoint e userMsg now rng).2.1.history.length =
            (if e.history.length ≤ 30 then e.history.length + 2
             else if e.history.length ≤ 49 then e.history.length + 1 else 41) ∧
          (generateCounterpoint e userMsg now rng).2.1.history <:+
            log ++ [callRecord e userMsg now rng, callRecord e userMsg now rng]) := by
  have ht := runCalls_trace new [] Trace.fresh ⟨fun _ => 0, fun _ => true, 0⟩
    ((List.range 35).map (fun (i : Nat) => (MidiMessage.noteOn 1 (60 + (i : Int)) 100, (i : ℚ))))
  rw [List.nil_append] at ht
  refine ⟨_, _, rfl, rfl, ht, ?_, ?_, history_invariant _ _ ht⟩
  · rw [runLog_length, List.length_map, List.length_range]
  · rw [runCalls_length, List.length_map, List.length_range]
    decide

end CounterpointEngine

namespace CounterpointEngine

theorem chooseWeightedInterval_pos (rng : Random) :
    (chooseWeightedInterval rng).2.pos = rng.pos + 1 := by
  simp only [chooseWeightedInterval, Random.nextFloat]
  split <;> rfl

theorem initialMotion_of_unset (e : CounterpointEngine) (p : Int) (rng : Random)
    (h : e.lastInputNote = -1) :
    (initialMotion e p rng).2 = { rng with pos := rng.pos + 1 } := by
  simp [initialMotion, h, Random.nextBool]

/-- C27: in every state reached from a fresh engine, `generateValidCounterpoint`
accepts its first candidate: the random source is left right after the motion
coin and one interval draw, and the returned pitch is computed from the input
pitch, `generateAbove` and that first interval alone; two runs from reachable
states that agree on these three values return the same pitch, whatever their
histories, clock values and remaining draws. -/
theorem generateValidCounterpoint_first_candidate (e : CounterpointEngine)
    (log : List NotePair) (h : Trace e log) (p : Int) (now : ℚ) (rng : Random) :
    (generateValidCounterpoint e p now rng).1 =
      clampAndFallback e.generateAbove p (enforceSeparation e.generateAbove p
        (rangeAdjust e.generateAbove p
          (chooseWeightedInterval { rng with pos := rng.pos + 1 }).1)) ∧
    (generateValidCounterpoint e p now rng).2.2 =
      (chooseWeightedInterval { rng with pos := rng.pos + 1 }).2 ∧
    (generateValidCounterpoint e p now rng).2.2.pos = rng.pos + 2 ∧
    ∀ (e2 : CounterpointEngine) (log2 : List NotePair) (now2 : ℚ) (rng2 : Random),
      Trace e2 log2 → e2.generateAbove = e.generateAbove →
      (chooseWeightedInterval { rng2 with pos := rng2.pos + 1 }).1 =
        (chooseWeightedInterval { rng with pos := rng.pos + 1 }).1 →
      (generateValidCounterpoint e2 p now2 rng2).1 =
        (generateValidCounterpoint e p now rng).1 := by
  have hi := trace_invariant e log h
  have hf := generateValidCounterpoint_first e p now rng (Or.inl hi.2.2.1)
  rw [initialMotion_of_unset e p rng hi.2.2.2] at hf
  refine ⟨hf.1, hf.2, ?_, ?_⟩
  · rw [hf.2, chooseWeightedInterval_pos]
  · intro e2 log2 now2 rng2 h2 hab hint
    have hi2 := trace_invariant e2 log2 h2
    have hf2 := generateValidCounterpoint_first e2 p now2 rng2 (Or.inl hi2.2.2.1)
    rw [initialMotion_of_unset e2 p rng2 hi2.2.2.2] at hf2
    rw [hf.1, hf2.1, hab, hint]

/-- Witness for C27: the fresh engine, input 60. -/
theorem generateValidCounterpoint_first_candidate_witness :
    Trace new [] ∧
    (generateValidCounterpoint new 60 0 ⟨fun _ => 0, fun _ => true, 0⟩).2.2.pos = 0 + 2 :=
  ⟨Trace.fresh,
    (generateValidCounterpoint_first_candidate new [] Trace.fresh 60 0
      ⟨fun _ => 0, fun _ => true, 0⟩).2.2.1⟩

/-- C25: for every input pitch in [24,96], either direction and every interval of
the weighted table, the candidate produced by the octave retry and the direction
flip lies in [24,96]. -/
theorem rangeAdjust_range (above : Bool) (p i : Int) (h1 : 24 ≤ p) (h2 : p ≤ 96)
    (hi : i ∈ [(3 : Int), 4, 7, 8, 9, 12]) :
    24 ≤ rangeAdjust above p i ∧ rangeAdjust above p i ≤ 96 := by
  simp only [List.mem_cons, List.mem_singleton, List.not_mem_nil, or_false] at hi
  have h3 : 3 ≤ i ∧ i ≤ 12 := by omega
  unfold rangeAdjust
  cases above
  · simp only [Bool.false_eq_true, if_false, false_and, true_and]
    split_ifs <;> omega
  · simp only [if_true, true_and, Bool.true_eq_false, false_and, if_false]
    split_ifs <;> omega

/-- Witness for C25: input 90 generating above with a fifth, where the octave
retry applies (97 is out of range, 85 is returned). -/
theorem rangeAdjust_range_witness :
    (24 : Int) ≤ 90 ∧ (90 : Int) ≤ 96 ∧ (7 : Int) ∈ [(3 : Int), 4, 7, 8, 9, 12] ∧
    24 ≤ rangeAdjust true 90 7 ∧ rangeAdjust true 90 7 ≤ 96 :=
  ⟨by decide, by decide, by decide,
    rangeAdjust_range true 90 7 (by decide) (by decide) (by decide)⟩

theorem chooseWeightedInterval_third (rng : Random) (h : rng.floats rng.pos = 0.1) :
    chooseWeightedInterval rng = (3, { rng with pos := rng.pos + 1 }) := by
  simp only [chooseWeightedInterval, Random.nextFloat, h, consonantIntervals, List.foldl,
    pickInterval]
  norm_num

/-- C24 (failing input): input 60, generating above, drawn interval 3. The accepted
candidate 63 is 3 semitones above the input, yet the separation step replaces it
by 60 + 7 = 67 (its test is `genNote <= inputPitch + 3`), and 67 is what
`generateValidCounterpoint` returns on a fresh engine whatever the other draws. -/
theorem enforceSeparation_replaces_third (f : Nat → ℚ) (b : Nat → Bool) (now : ℚ) :
    rangeAdjust true 60 3 = 63 ∧ (60 : Int) + 3 ≤ 63 ∧
    enforceSeparation true 60 63 = 67 ∧
    (generateValidCounterpoint new 60 now
      ⟨fun n => if n = 1 then 0.1 else f n, b, 0⟩).1 = 67 := by
  refine ⟨by decide, by decide, by decide, ?_⟩
  have hf := generateValidCounterpoint_first new 60 now
    ⟨fun n => if n = 1 then 0.1 else f n, b, 0⟩ (Or.inl rfl)
  rw [initialMotion_of_unset new 60 _ rfl,
    chooseWeightedInterval_third _ (by simp)] at hf
  rw [hf.1]
  rfl

end CounterpointEngine

namespace CounterpointEngine

theorem attemptLoop_fuel (e : CounterpointEngine) (p : Int) (fuel : Nat) (st : LoopState)
    (h : 8 ≤ st.tries + fuel) :
    attemptLoop e p (fuel + 1) st = attemptLoop e p fuel st := by
  induction fuel generalizing st with
  | zero =>
    have h8 : ¬ st.tries < 8 := by omega
    simp [attemptLoop, h8]
  | succ n ih =>
    rw [attemptLoop]
    conv_rhs => rw [attemptLoop]
    by_cases h8 : st.tries < 8
    · simp only [h8, if_true]
      split_ifs
      · rfl
      · exact ih _ (by simp only; omega)
      · exact ih _ (by simp only; omega)
    · simp only [h8, if_false]

theorem attemptLoop_fuel_ge (e : CounterpointEngine) (p : Int) (fuel : Nat) (st : LoopState)
    (h0 : st.tries = 0) (h : 8 ≤ fuel) :
    attemptLoop e p fuel st = attemptLoop e p 8 st := by
  induction fuel with
  | zero => omega
  | succ n ih =>
    by_cases h8 : n = 7
    · subst h8; rfl
    · rw [attemptLoop_fuel e p n st (by omega), ih (by omega)]

theorem attemptLoop_draws (e : CounterpointEngine) (p : Int) (fuel : Nat) (st : LoopState)
    (h : st.tries + fuel = 8) :
    ((attemptLoop e p fuel st).tries = 8 ∧
      (attemptLoop e p fuel st).rng.pos = st.rng.pos + 2 * fuel) ∨
    ((attemptLoop e p fuel st).tries < 8 ∧ st.tries ≤ (attemptLoop e p fuel st).tries ∧
      (attemptLoop e p fuel st).rng.pos + 2 * st.tries =
        st.rng.pos + 2 * (attemptLoop e p fuel st).tries + 1) := by
  induction fuel generalizing st with
  | zero => left; exact ⟨by simpa using h, rfl⟩
  | succ n ih =>
    have h8 : st.tries < 8 := by omega
    rw [attemptLoop]
    simp only [h8, if_true]
    have hstep : ∀ m : Int,
        ((attemptLoop e p n
            { genNote := rangeAdjust e.generateAbove p (chooseWeightedInterval st.rng).1,
              tries := st.tries + 1, motion := m,
              rng := (chooseWeightedInterval st.rng).2.nextBool.2 }).tries = 8 ∧
          (attemptLoop e p n
            { genNote := rangeAdjust e.generateAbove p (chooseWeightedInterval st.rng).1,
              tries := st.tries + 1, motion := m,
              rng := (chooseWeightedInterval st.rng).2.nextBool.2 }).rng.pos =
            st.rng.pos + 2 * (n + 1)) ∨
        ((attemptLoop e p n
            { genNote := rangeAdjust e.generateAbove p (chooseWeightedInterval st.rng).1,
              tries := st.tries + 1, motion := m,
              rng := (chooseWeightedInterval st.rng).2.nextBool.2 }).tries < 8 ∧
          st.tries ≤ (attemptLoop e p n
            { genNote := rangeAdjust e.generateAbove p (chooseWeightedInterval st.rng).1,
              tries := st.tries + 1, motion := m,
              rng := (chooseWeightedInterval st.rng).2.nextBool.2 }).tries ∧
          (attemptLoop e p n
            { genNote := rangeAdjust e.generateAbove p (chooseWeightedInterval st.rng).1,
              tries := st.tries + 1, motion := m,
              rng := (chooseWeightedInterval st.rng).2.nextBool.2 }).rng.pos + 2 * st.tries =
            st.rng.pos + 2 * (attemptLoop e p n
              { genNote := rangeAdjust e.generateAbove p (chooseWeightedInterval st.rng).1,
                tries := st.tries + 1, motion := m,
                rng := (chooseWeightedInterval st.rng).2.nextBool.2 }).tries + 1) := by
      intro m
      have hpos : (chooseWeightedInterval st.rng).2.nextBool.2.pos = st.rng.pos + 2 := by
        simp only [Random.nextBool, chooseWeightedInterval_pos]
      rcases ih { genNote := rangeAdjust e.generateAbove p (chooseWeightedInterval st.rng).1,
                  tries := st.tries + 1, motion := m,
                  rng := (chooseWeightedInterval st.rng).2.nextBool.2 }
          (by simp only; omega) with h1 | h1
      · left
        simp only [hpos] at h1
        exact ⟨h1.1, by omega⟩
      · right
        simp only [hpos] at h1
        exact ⟨h1.1, by omega, by omega⟩
    split_ifs
    · right
      simp only [chooseWeightedInterval_pos]
      exact ⟨h8, le_refl _, by omega⟩
    · exact hstep 1
    · exact hstep (-1)

/-- C23: for every input pitch, engine state and stream of random values,
`generateValidCounterpoint` is a total function whose loop stops after at most 8
attempts: running the loop with any bound of at least 8 iterations gives the
same state as with 8, the number of failed attempts is at most 8, and the number
of interval draws (generator calls made by the loop, less one coin per failed
attempt) is between 1 and 8; the pitch returned lies in [36,84] whether or not
an attempt was valid. -/
theorem generateValidCounterpoint_terminates (e : CounterpointEngine) (p : Int) (now : ℚ)
    (rng : Random) :
    (∀ fuel, 8 ≤ fuel →
      attemptLoop e p fuel { genNote := p, tries := 0, motion := (initialMotion e p rng).1,
                             rng := (initialMotion e p rng).2 } =
      attemptLoop e p 8 { genNote := p, tries := 0, motion := (initialMotion e p rng).1,
                          rng := (initialMotion e p rng).2 }) ∧
    (∃ draws failed : Nat, 1 ≤ draws ∧ draws ≤ 8 ∧ failed ≤ 8 ∧
      (failed = draws ∨ failed + 1 = draws) ∧
      (attemptLoop e p 8 { genNote := p, tries := 0, motion := (initialMotion e p rng).1,
                           rng := (initialMotion e p rng).2 }).tries = failed ∧
      (generateValidCounterpoint e p now rng).2.2.pos =
        (initialMotion e p rng).2.pos + draws + failed) ∧
    36 ≤ (generateValidCounterpoint e p now rng).1 ∧
    (generateValidCounterpoint e p now rng).1 ≤ 84 := by
  refine ⟨fun fuel hf => attemptLoop_fuel_ge e p fuel _ rfl hf, ?_, ?_⟩
  · have hrng : (generateValidCounterpoint e p now rng).2.2 =
        (attemptLoop e p 8 { genNote := p, tries := 0, motion := (initialMotion e p rng).1,
                             rng := (initialMotion e p rng).2 }).rng := rfl
    rw [hrng]
    rcases attemptLoop_draws e p 8
        { genNote := p, tries := 0, motion := (initialMotion e p rng).1,
          rng := (initialMotion e p rng).2 } (by simp) with h | h
    · exact ⟨8, 8, by omega, by omega, by omega, Or.inl rfl, h.1, by
        rw [h.2]⟩
    · refine ⟨_ + 1, _, by omega, by omega, by omega, Or.inr rfl, rfl, ?_⟩
      have := h.2.2
      simp only [Nat.mul_zero, Nat.add_zero] at this
      omega
  · simp only [generateValidCounterpoint, clampAndFallback]
    split_ifs <;> exact jlimit_range _

end CounterpointEngine

namespace RuleChecker

theorem isConsonant_of_isPerfect (s : Int) (h : isPerfect s = true) : isConsonant s = true := by
  rw [isPerfect_iff] at h
  rw [isConsonant_iff]
  rcases h with h | h <;> simp [h]

theorem dissonanceCheck_kinds (inP genP : Int) (t : ℚ) :
    (dissonanceCheck inP genP t).map (fun v => v.kind) =
      if isConsonant (genP - inP) = true then [] else [.DissonanceOnStrongBeat] := by
  unfold dissonanceCheck
  cases isConsonant (genP - inP) <;> rfl

theorem finalNoteRule_kinds (H : List ExplanationNotePair) (inP genP : Int) (t : ℚ)
    (inPhrase : Bool) :
    ((finalNoteRule H inP genP t inPhrase).map (fun v => v.kind) = [] ∨
      ((finalNoteRule H inP genP t inPhrase).map (fun v => v.kind) = [.Other] ∧
        isPerfect (genP - inP) = false)) := by
  unfold finalNoteRule
  split
  · cases hp : isPerfect (genP - inP)
    · right; exact ⟨rfl, rfl⟩
    · left; rfl
  · left; rfl

theorem historicalChecks_kinds (H : List ExplanationNotePair) (inP genP : Int) (t : ℚ) :
    (historicalChecks H inP genP t).map (fun v => v.kind) = [] ∨
    (isPerfect (genP - inP) = true ∧
      ((historicalChecks H inP genP t).map (fun v => v.kind) = [.ParallelOctave] ∨
       (historicalChecks H inP genP t).map (fun v => v.kind) = [.ParallelFifth] ∨
       (historicalChecks H inP genP t).map (fun v => v.kind) = [.HiddenFifthOctave])) := by
  unfold historicalChecks
  split
  · left; rfl
  · next prev _ =>
    simp only [parallelPerfects, hiddenPerfects, isPerfect_stdAbs]
    cases hc : isPerfect (genP - inP)
    · left; simp
    · cases hp : isPerfect (prev.gen - prev.input)
      · by_cases hd : (direction inP prev.input == direction genP prev.gen) = true
        · right
          exact ⟨rfl, Or.inr (Or.inr (by simp [hd]))⟩
        · left; simp [hd]
      · by_cases hd : (direction inP prev.input == direction genP prev.gen &&
            direction inP prev.input != 0) = true
        · right
          refine ⟨rfl, ?_⟩
          have hcond : (true && true && direction inP prev.input == direction genP prev.gen &&
              direction inP prev.input != 0) = true := by
            rw [Bool.and_assoc]; simpa using hd
          simp only [hcond, if_true, Bool.not_true, Bool.false_and, Bool.false_eq_true,
            if_false, List.append_nil, List.map_cons, List.map_nil]
          rcases parallelKind_cases (stdAbs (prev.gen - prev.input)) (stdAbs (genP - inP))
            with h | h
          · left; rw [h]
          · right; left; rw [h]
        · left
          have hcond : (true && true && direction inP prev.input == direction genP prev.gen &&
              direction inP prev.input != 0) = false := by
            rw [Bool.and_assoc]; simpa using hd
          simp only [hcond, Bool.false_eq_true, if_false, Bool.not_true, Bool.false_and,
            List.append_nil]
          rfl

end RuleChecker

namespace RuleChecker

/-- C29: the ExplanationNotePair overload of `evaluate` returns at most two
violations. The kinds of the result form one of the lists [], [Dissonance],
[Other], [Dissonance, Other], [ParallelOctave], [ParallelFifth],
[HiddenFifthOctave]: a dissonance or phrase-ending violation never comes with a
parallel or hidden perfect, a parallel perfect never comes with a hidden one,
and the only two-element result is [DissonanceOnStrongBeat, Other]. -/
theorem evaluate_kinds (H : List ExplanationNotePair) (inP genP : Int) (t : ℚ)
    (inPhrase : Bool) :
    (evaluate H inP genP t inPhrase).map (fun v => v.kind) ∈
      [[], [.DissonanceOnStrongBeat], [.Other], [.DissonanceOnStrongBeat, .Other],
       [.ParallelOctave], [.ParallelFifth], [.HiddenFifthOctave]] ∧
    (evaluate H inP genP t inPhrase).length ≤ 2 ∧
    ((evaluate H inP genP t inPhrase).length = 2 →
      (evaluate H inP genP t inPhrase).map (fun v => v.kind) =
        [.DissonanceOnStrongBeat, .Other]) := by
  have key : (evaluate H inP genP t inPhrase).map (fun v => v.kind) ∈
      [[], [.DissonanceOnStrongBeat], [.Other], [.DissonanceOnStrongBeat, .Other],
       [.ParallelOctave], [.ParallelFifth], [.HiddenFifthOctave]] := by
    simp only [evaluate, List.map_append, dissonanceCheck_kinds]
    rcases historicalChecks_kinds H inP genP t with hh | ⟨hperf, hh⟩
    · rw [hh]
      rcases finalNoteRule_kinds H inP genP t inPhrase with hf | ⟨hf, _⟩ <;> rw [hf] <;>
        cases isConsonant (genP - inP) <;> simp
    · have hcons := isConsonant_of_isPerfect _ hperf
      rcases finalNoteRule_kinds H inP genP t inPhrase with hf | ⟨_, hf⟩
      · rw [hf, hcons]
        rcases hh with hh | hh | hh <;> rw [hh] <;> simp
      · rw [hperf] at hf
        cases hf
  refine ⟨key, ?_, ?_⟩
  · have hl : ((evaluate H inP genP t inPhrase).map (fun v => v.kind)).length ≤ 2 := by
      simp only [List.mem_cons, List.mem_singleton, List.not_mem_nil, or_false] at key
      rcases key with h | h | h | h | h | h | h <;> rw [h] <;> simp
    simpa using hl
  · intro h2
    have hl : ((evaluate H inP genP t inPhrase).map (fun v => v.kind)).length = 2 := by
      simpa using h2
    simp only [List.mem_cons, List.mem_singleton, List.not_mem_nil, or_false] at key
    rcases key with h | h | h | h | h | h | h <;> rw [h] at hl ⊢ <;> simp at hl ⊢

theorem parallelCheckNotePairs_cases (H : List NotePair) (inP genP : Int) (t : ℚ) :
    parallelCheckNotePairs H inP genP t = [] ∨
    (∃ v, parallelCheckNotePairs H inP genP t = [v] ∧ v.severity = 1 ∧
      (v.kind = .ParallelOctave ∨ v.kind = .ParallelFifth) ∧
      (cMod (stdAbs (genP - inP)) 12 = 7 ∨ cMod (stdAbs (genP - inP)) 12 = 0)) := by
  unfold parallelCheckNotePairs
  split
  · split
    · left; rfl
    · next prev _ =>
      simp only
      split
      · next hc =>
        right
        refine ⟨_, rfl, by norm_num, parallelKind_cases _ _, ?_⟩
        simp only [Bool.and_eq_true, Bool.or_eq_true, beq_iff_eq] at hc
        exact hc.1.1.2
      · left; rfl
  · left; rfl

theorem currentIntervalEntry_cases (inP genP : Int) (t : ℚ) :
    ((currentIntervalEntry inP genP t).kind = .Consonance ∧
      (currentIntervalEntry inP genP t).severity = 0) ∨
    ((currentIntervalEntry inP genP t).kind = .DissonanceOnStrongBeat ∧
      (currentIntervalEntry inP genP t).severity = 1 ∧
      cMod (stdAbs (genP - inP)) 12 ≠ 7 ∧ cMod (stdAbs (genP - inP)) 12 ≠ 0) := by
  by_cases h : |genP - inP| % 12 ∈ [(0 : Int), 3, 4, 7, 8, 9]
  · left
    have := currentIntervalEntry_consonant inP genP t h
    exact ⟨this.1, this.2.1⟩
  · right
    have := currentIntervalEntry_dissonant inP genP t h
    refine ⟨this.1, this.2.1, ?_, ?_⟩
    · rw [cMod_stdAbs]; intro h7; exact h (by simp [h7])
    · rw [cMod_stdAbs]; intro h0; exact h (by simp [h0])

/-- C30: for every NotePair history and pitch pair the total severity of the
entries returned by the NotePair overload of `evaluate` is 0 or 1 (a dissonance
and a parallel perfect never fire together), `evaluateScore` is 1 - 0.3 times
that total without the clamp changing anything, so it is 1.0 when the result is
a lone `Consonance` entry and 0.7 otherwise. -/
theorem evaluateScore_two_values (H : List NotePair) (inP genP : Int) (t : ℚ) :
    (evaluateScore H inP genP t = 1 ∨ evaluateScore H inP genP t = 0.7) ∧
    ((evaluateNotePairs H inP genP t).map (fun x => x.severity)).sum ≤ 1 ∧
    evaluateScore H inP genP t =
      1 - 0.3 * ((evaluateNotePairs H inP genP t).map (fun x => x.severity)).sum ∧
    ((evaluateNotePairs H inP genP t).map (fun x => x.kind) = [.Consonance] →
      evaluateScore H inP genP t = 1) ∧
    ((evaluateNotePairs H inP genP t).map (fun x => x.kind) ≠ [.Consonance] →
      evaluateScore H inP genP t = 0.7) := by
  rw [evaluateScore_formula]
  simp only [evaluateNotePairs, List.singleton_append, List.map_cons, List.sum_cons]
  rcases currentIntervalEntry_cases inP genP t with ⟨hk, hs⟩ | ⟨hk, hs, h7, h0⟩
  · rcases parallelCheckNotePairs_cases H inP genP t with hp | ⟨v, hp, hv, hvk, _⟩
    · rw [hp, hs, hk]
      norm_num
    · rw [hp, hs, hk]
      simp only [List.map_cons, List.map_nil, List.sum_cons, List.sum_nil, hv]
      refine ⟨by norm_num, by norm_num, by norm_num, ?_, fun _ => by norm_num⟩
      intro hc
      rcases hvk with h | h <;> rw [h] at hc <;> simp at hc
  · rcases parallelCheckNotePairs_cases H inP genP t with hp | ⟨v, _, _, _, hv⟩
    · rw [hp, hs, hk]
      norm_num
      decide
    · rcases hv with h | h
      · exact absurd h h7
      · exact absurd h h0

end RuleChecker

namespace ExplanationEngine

theorem refinedInfluence_shape (model : ModelBridge) (ctx : List ContextNote) (keyRoot : Int)
    (isMajor : Bool) (base : Rationale) (i : Nat) (inf : Influence) :
    (refinedInfluence model ctx keyRoot isMajor base i inf).pitch = inf.pitch ∧
    (refinedInfluence model ctx keyRoot isMajor base i inf).startSec = inf.startSec ∧
    (refinedInfluence model ctx keyRoot isMajor base i inf).endSec = inf.endSec := by
  unfold refinedInfluence
  split <;> exact ⟨rfl, rfl, rfl⟩

theorem attachDelta_getElem? (erased : ContextNote) (delta : ℚ) (l : List Influence)
    (huniq : ∀ (j1 j2 : Nat) (a b : Influence), l[j1]? = some a → l[j2]? = some b →
      (a.pitch = erased.pitch ∧ |a.startSec - erased.startSec| < 0.01) →
      (b.pitch = erased.pitch ∧ |b.startSec - erased.startSec| < 0.01) → j1 = j2)
    (j : Nat) :
    (attachDelta erased delta l)[j]? =
      (l[j]?).map (fun inf =>
        if inf.pitch = erased.pitch ∧ |inf.startSec - erased.startSec| < 0.01 then
          { inf with weight := jlimitF 0.0 1.0 (inf.weight + delta) }
        else inf) := by
  induction l generalizing j with
  | nil => simp [attachDelta]
  | cons x rest ih =>
    by_cases hx : x.pitch = erased.pitch ∧ |x.startSec - erased.startSec| < 0.01
    · simp only [attachDelta, hx, and_self, if_true]
      cases j with
      | zero => simp [hx]
      | succ j =>
        simp only [List.getElem?_cons_succ]
        cases hr : rest[j]? with
        | none => rfl
        | some b =>
          simp only [Option.map_some']
          by_cases hb : b.pitch = erased.pitch ∧ |b.startSec - erased.startSec| < 0.01
          · have := huniq 0 (j + 1) x b (by simp) (by simp [hr]) hx hb
            omega
          · rw [if_neg hb]
    · simp only [attachDelta, hx, if_false]
      cases j with
      | zero => simp [hx]
      | succ j =>
        simp only [List.getElem?_cons_succ]
        apply ih
        intro j1 j2 a b h1 h2 ha hb
        have := huniq (j1 + 1) (j2 + 1) a b (by simpa using h1) (by simpa using h2) ha hb
        omega

theorem attachDelta_length (erased : ContextNote) (delta : ℚ) (l : List Influence) :
    (attachDelta erased delta l).length = l.length := by
  induction l with
  | nil => rfl
  | cons x rest ih =>
    simp only [attachDelta]
    split
    · rfl
    · simp [ih]

end ExplanationEngine

namespace ExplanationEngine

theorem matches_iff (ctx : List ContextNote) (base : Rationale) (idx : Nat → Nat) (m : Nat)
    (erased : ContextNote) (he : ctx[m]? = some erased)
    (hctx : ∀ (i j : Nat) (a b : ContextNote), ctx[i]? = some a → ctx[j]? = some b → i ≠ j →
      a.pitch ≠ b.pitch ∨ 0.01 ≤ |a.startSec - b.startSec|)
    (hidx : ∀ (j : Nat) (inf : Influence), base.influences[j]? = some inf →
      ∃ c, ctx[idx j]? = some c ∧ inf.pitch = c.pitch ∧ inf.startSec = c.startSec)
    (j : Nat) (inf cur : Influence) (hj : base.influences[j]? = some inf)
    (hp : cur.pitch = inf.pitch) (hs : cur.startSec = inf.startSec) :
    (cur.pitch = erased.pitch ∧ |cur.startSec - erased.startSec| < 0.01) ↔ idx j = m := by
  obtain ⟨c, hc, hcp, hcs⟩ := hidx j inf hj
  constructor
  · rintro ⟨h1, h2⟩
    by_contra hne
    rcases hctx (idx j) m c erased hc he hne with h | h
    · exact h (by rw [← hcp, ← hp, h1])
    · rw [← hcs, ← hs] at h
      exact absurd h2 (not_lt.mpr h)
  · intro hm
    rw [hm, he] at hc
    cases hc
    refine ⟨by rw [hp, hcp], ?_⟩
    rw [hs, hcs, sub_self, abs_zero]
    norm_num

theorem occlusionStep_progress (model : ModelBridge) (ctx : List ContextNote) (keyRoot : Int)
    (isMajor : Bool) (base : Rationale) (idx : Nat → Nat) (processed : List Nat)
    (r : Rationale) (k : Nat)
    (hctx : ∀ (i j : Nat) (a b : ContextNote), ctx[i]? = some a → ctx[j]? = some b → i ≠ j →
      a.pitch ≠ b.pitch ∨ 0.01 ≤ |a.startSec - b.startSec|)
    (hidx : ∀ (j : Nat) (inf : Influence), base.influences[j]? = some inf →
      ∃ c, ctx[idx j]? = some c ∧ inf.pitch = c.pitch ∧ inf.startSec = c.startSec)
    (hinj : ∀ (j1 j2 : Nat) (i1 i2 : Influence), base.influences[j1]? = some i1 →
      base.influences[j2]? = some i2 → idx j1 = idx j2 → j1 = j2)
    (hP : OcclusionProgress model ctx keyRoot isMajor base idx processed r)
    (hk : k < ctx.length) (hnew : k ∉ processed) :
    OcclusionProgress model ctx keyRoot isMajor base idx (k :: processed)
      (occlusionStep model ctx keyRoot isMajor r k) := by
  obtain ⟨hcp, hprob, hsum, hdet, htr, hlen, hpt⟩ := hP
  obtain ⟨erased, he⟩ : ∃ erased, ctx[ctx.length - 1 - k]? = some erased :=
    ⟨_, List.getElem?_eq_getElem (by omega)⟩
  have hlt : ∀ (j : Nat) (inf : Influence), base.influences[j]? = some inf →
      idx j < ctx.length := by
    intro j inf hj
    obtain ⟨c, hc, _⟩ := hidx j inf hj
    by_contra hge
    rw [List.getElem?_eq_none (by omega)] at hc
    cases hc
  have hcur : ∀ (j : Nat) (inf : Influence), base.influences[j]? = some inf →
      (if ctx.length - 1 - idx j ∈ processed then
        refinedInfluence model ctx keyRoot isMajor base (idx j) inf else inf).pitch = inf.pitch ∧
      (if ctx.length - 1 - idx j ∈ processed then
        refinedInfluence model ctx keyRoot isMajor base (idx j) inf
          else inf).startSec = inf.startSec := by
    intro j inf _
    split_ifs
    · exact ⟨(refinedInfluence_shape _ _ _ _ _ _ _).1, (refinedInfluence_shape _ _ _ _ _ _ _).2.1⟩
    · exact ⟨rfl, rfl⟩
  have hmem : ∀ (j : Nat) (inf : Influence), base.influences[j]? = some inf →
      idx j ≠ ctx.length - 1 - k →
      (ctx.length - 1 - idx j ∈ k :: processed ↔ ctx.length - 1 - idx j ∈ processed) := by
    intro j inf hj hne
    have := hlt j inf hj
    rw [List.mem_cons]
    constructor
    · rintro (h | h)
      · omega
      · exact h
    · exact Or.inr
  have hself : ∀ (j : Nat) (inf : Influence), base.influences[j]? = some inf →
      idx j = ctx.length - 1 - k →
      ctx.length - 1 - idx j ∈ k :: processed ∧ ctx.length - 1 - idx j ∉ processed := by
    intro j inf hj heq
    have hkk : ctx.length - 1 - idx j = k := by omega
    rw [hkk]
    exact ⟨List.mem_cons_self _ _, hnew⟩
  simp only [occlusionStep, he]
  cases hm : model (ctx.eraseIdx (ctx.length - 1 - k)) [r.candidatePitch] keyRoot isMajor with
  | nil =>
    rw [hcp] at hm
    show OcclusionProgress model ctx keyRoot isMajor base idx (k :: processed) r
    refine ⟨hcp, hprob, hsum, hdet, htr, hlen, ?_⟩
    intro j inf hj
    rw [hpt j inf hj]
    by_cases hjk : idx j = ctx.length - 1 - k
    · have hs := hself j inf hj hjk
      rw [if_neg hs.2, if_pos hs.1]
      unfold refinedInfluence
      rw [hjk, hm]
    · rw [if_congr (hmem j inf hj hjk) rfl rfl]
  | cons first rest =>
    rw [hcp] at hm
    show OcclusionProgress model ctx keyRoot isMajor base idx (k :: processed)
      { r with influences := attachDelta erased (r.prob - first.prob) r.influences }
    rw [hprob]
    refine ⟨hcp, rfl, hsum, hdet, htr, ?_, ?_⟩
    · simp only [attachDelta_length]
      exact hlen
    · intro j inf hj
      show (attachDelta erased (base.prob - first.prob) r.influences)[j]? = _
      have huniq : ∀ (j1 j2 : Nat) (a b : Influence), r.influences[j1]? = some a →
          r.influences[j2]? = some b →
          (a.pitch = erased.pitch ∧ |a.startSec - erased.startSec| < 0.01) →
          (b.pitch = erased.pitch ∧ |b.startSec - erased.startSec| < 0.01) → j1 = j2 := by
        intro j1 j2 a b h1 h2 ha hb
        have hb1 : j1 < base.influences.length := by
          rw [← hlen]
          by_contra hge
          rw [List.getElem?_eq_none (by omega)] at h1
          cases h1
        have hb2 : j2 < base.influences.length := by
          rw [← hlen]
          by_contra hge
          rw [List.getElem?_eq_none (by omega)] at h2
          cases h2
        have e1 := hpt j1 _ (List.getElem?_eq_getElem hb1)
        have e2 := hpt j2 _ (List.getElem?_eq_getElem hb2)
        rw [h1] at e1
        rw [h2] at e2
        cases e1
        cases e2
        have i1 := (matches_iff ctx base idx _ erased he hctx hidx j1 _ _
          (List.getElem?_eq_getElem hb1) (hcur j1 _ (List.getElem?_eq_getElem hb1)).1
          (hcur j1 _ (List.getElem?_eq_getElem hb1)).2).mp ha
        have i2 := (matches_iff ctx base idx _ erased he hctx hidx j2 _ _
          (List.getElem?_eq_getElem hb2) (hcur j2 _ (List.getElem?_eq_getElem hb2)).1
          (hcur j2 _ (List.getElem?_eq_getElem hb2)).2).mp hb
        exact hinj j1 j2 _ _ (List.getElem?_eq_getElem hb1) (List.getElem?_eq_getElem hb2)
          (by rw [i1, i2])
      rw [attachDelta_getElem? erased _ r.influences huniq j, hpt j inf hj, Option.map_some']
      have hmi := matches_iff ctx base idx _ erased he hctx hidx j inf _ hj
        (hcur j inf hj).1 (hcur j inf hj).2
      by_cases hjk : idx j = ctx.length - 1 - k
      · have hs := hself j inf hj hjk
        rw [if_pos (hmi.mpr hjk), if_neg hs.2, if_pos hs.1]
        unfold refinedInfluence
        rw [hjk, hm, RuleChecker.jlimitF_unit]
      · rw [if_neg (fun h => hjk (hmi.mp h)), if_congr (hmem j inf hj hjk) rfl rfl]

end ExplanationEngine

namespace ExplanationEngine

theorem foldl_occlusionStep_progress (model : ModelBridge) (ctx : List ContextNote)
    (keyRoot : Int) (isMajor : Bool) (base : Rationale) (idx : Nat → Nat)
    (hctx : ∀ (i j : Nat) (a b : ContextNote), ctx[i]? = some a → ctx[j]? = some b → i ≠ j →
      a.pitch ≠ b.pitch ∨ 0.01 ≤ |a.startSec - b.startSec|)
    (hidx : ∀ (j : Nat) (inf : Influence), base.influences[j]? = some inf →
      ∃ c, ctx[idx j]? = some c ∧ inf.pitch = c.pitch ∧ inf.startSec = c.startSec)
    (hinj : ∀ (j1 j2 : Nat) (i1 i2 : Influence), base.influences[j1]? = some i1 →
      base.influences[j2]? = some i2 → idx j1 = idx j2 → j1 = j2)
    (ks : List Nat) (processed : List Nat) (r : Rationale)
    (hP : OcclusionProgress model ctx keyRoot isMajor base idx processed r)
    (hks : ks.Nodup) (hlt : ∀ k ∈ ks, k < ctx.length) (hdis : ∀ k ∈ ks, k ∉ processed) :
    OcclusionProgress model ctx keyRoot isMajor base idx (ks.reverse ++ processed)
      (ks.foldl (occlusionStep model ctx keyRoot isMajor) r) := by
  induction ks generalizing processed r with
  | nil => simpa using hP
  | cons k ks ih =>
    rw [List.foldl_cons, List.reverse_cons, List.append_assoc, List.singleton_append]
    rw [List.nodup_cons] at hks
    apply ih
    · exact occlusionStep_progress model ctx keyRoot isMajor base idx processed r k hctx hidx
        hinj hP (hlt k (List.mem_cons_self _ _)) (hdis k (List.mem_cons_self _ _))
    · exact hks.2
    · intro k2 hk2
      exact hlt k2 (List.mem_cons_of_mem _ hk2)
    · intro k2 hk2 hmem
      rcases List.mem_cons.mp hmem with h | h
      · rw [h] at hk2
        exact hks.1 hk2
      · exact hdis k2 (List.mem_cons_of_mem _ hk2) h

/-- C26: occlusion refinement. Let the context notes pairwise differ in pitch or by
at least 10 ms in start time, and let the influence entry at position `j` of the
base rationale stand for the context note of index `idx j` (same pitch and start),
distinct positions standing for distinct notes. With fewer than 2 context notes
the rationale is returned unchanged. Otherwise every field but the influences is
unchanged, the influence list keeps its length, and the entry at position `j` is
the refined one (weight + (base.prob - p_masked) clamped to [0,1], unchanged when
the model returns nothing) when its note is among the min(5, n) most recent
context notes, and is unchanged otherwise. -/
theorem occlusionExplain_refines (model : ModelBridge) (ctx : List ContextNote)
    (base : Rationale) (keyRoot : Int) (isMajor : Bool) (idx : Nat → Nat)
    (hctx : ∀ (i j : Nat) (a b : ContextNote), ctx[i]? = some a → ctx[j]? = some b → i ≠ j →
      a.pitch ≠ b.pitch ∨ 0.01 ≤ |a.startSec - b.startSec|)
    (hidx : ∀ (j : Nat) (inf : Influence), base.influences[j]? = some inf →
      ∃ c, ctx[idx j]? = some c ∧ inf.pitch = c.pitch ∧ inf.startSec = c.startSec)
    (hinj : ∀ (j1 j2 : Nat) (i1 i2 : Influence), base.influences[j1]? = some i1 →
      base.influences[j2]? = some i2 → idx j1 = idx j2 → j1 = j2) :
    (ctx.length < 2 → occlusionExplain model ctx base keyRoot isMajor = base) ∧
    (2 ≤ ctx.length →
      (occlusionExplain model ctx base keyRoot isMajor).candidatePitch = base.candidatePitch ∧
      (occlusionExplain model ctx base keyRoot isMajor).prob = base.prob ∧
      (occlusionExplain model ctx base keyRoot isMajor).summary = base.summary ∧
      (occlusionExplain model ctx base keyRoot isMajor).detail = base.detail ∧
      (occlusionExplain model ctx base keyRoot isMajor).triggeredRules = base.triggeredRules ∧
      (occlusionExplain model ctx base keyRoot isMajor).influences.length =
        base.influences.length ∧
      ∀ (j : Nat) (inf : Influence), base.influences[j]? = some inf →
        (occlusionExplain model ctx base keyRoot isMajor).influences[j]? = some
          (if ctx.length - min 5 ctx.length ≤ idx j then
            refinedInfluence model ctx keyRoot isMajor base (idx j) inf
           else inf)) := by
  constructor
  · intro hn
    simp [occlusionExplain, hn]
  · intro hn
    have hP0 : OcclusionProgress model ctx keyRoot isMajor base idx [] base :=
      ⟨rfl, rfl, rfl, rfl, rfl, rfl, fun j inf hj => by simpa using hj⟩
    have hfold := foldl_occlusionStep_progress model ctx keyRoot isMajor base idx hctx hidx
      hinj (List.range (min 5 ctx.length)) [] base hP0 (List.nodup_range _)
      (fun k hk => by
        have := List.mem_range.mp hk
        omega)
      (fun k _ h => absurd h (List.not_mem_nil k))
    have hocc : occlusionExplain model ctx base keyRoot isMajor =
        (List.range (min 5 ctx.length)).foldl (occlusionStep model ctx keyRoot isMajor) base := by
      simp only [occlusionExplain]
      rw [if_neg (by omega)]
    rw [hocc]
    obtain ⟨h1, h2, h3, h4, h5, h6, h7⟩ := hfold
    refine ⟨h1, h2, h3, h4, h5, h6, ?_⟩
    intro j inf hj
    rw [h7 j inf hj]
    obtain ⟨c, hc, _⟩ := hidx j inf hj
    have hlt : idx j < ctx.length := by
      by_contra hge
      rw [List.getElem?_eq_none (by omega)] at hc
      cases hc
    have hiff : ctx.length - 1 - idx j ∈ (List.range (min 5 ctx.length)).reverse ++ [] ↔
        ctx.length - min 5 ctx.length ≤ idx j := by
      rw [List.append_nil, List.mem_reverse, List.mem_range]
      omega
    rw [if_congr hiff rfl rfl]

/-- Witness for C26: a context of two notes, a base rationale with one influence
per note (most recent first, as the mock model lists them) and a model that
always answers with probability 0.25. -/
theorem occlusionExplain_refines_witness :
    2 ≤ ([⟨60, 0, 1⟩, ⟨62, 1, 2⟩] : List ContextNote).length ∧
    (occlusionExplain (fun _ _ _ _ => [{ candidatePitch := 64, prob := 0.25 }])
      [⟨60, 0, 1⟩, ⟨62, 1, 2⟩]
      { candidatePitch := 64, prob := 0.5,
        influences := [⟨62, 1, 2, 1⟩, ⟨60, 0, 1, 0.82⟩] } 0 true).influences.length = 2 := by
  refine ⟨by decide, ?_⟩
  have h := (occlusionExplain_refines (fun _ _ _ _ => [{ candidatePitch := 64, prob := 0.25 }])
    [⟨60, 0, 1⟩, ⟨62, 1, 2⟩]
    { candidatePitch := 64, prob := 0.5, influences := [⟨62, 1, 2, 1⟩, ⟨60, 0, 1, 0.82⟩] }
    0 true (fun j => 1 - j) ?_ ?_ ?_).2 (by decide)
  · exact h.2.2.2.2.2.1
  · intro i j a b hi hj hij
    rcases i with _ | _ | i <;> rcases j with _ | _ | j <;>
      simp at hi hj hij <;> subst hi <;> subst hj <;> norm_num
  · intro j inf hj
    rcases j with _ | _ | j <;> simp at hj <;> subst hj
    · exact ⟨_, rfl, rfl, rfl⟩
    · exact ⟨_, rfl, rfl, rfl⟩
  · intro j1 j2 i1 i2 h1 h2 h12
    rcases j1 with _ | _ | j1 <;> rcases j2 with _ | _ | j2 <;>
      simp at h1 h2 h12 ⊢

end ExplanationEngine

end PolyMuse
